import Mathlib

set_option maxHeartbeats 1000000

namespace Bus

/-!
Shallow embedding of the topic-pattern compilation and matching engine of the
`bus` repository: the helpers of `src/src/lib/PatternHelpers.ts` and the
`Pattern` facade (`src/unnamed/part_000`).

Topics and patterns are `/`-separated strings.  The compiler turns a pattern
string into a list of tokens; from the tokens it derives a subscribable topic,
a regular expression (executed by the JavaScript regex engine in the source;
its behaviour on the specific fragment shapes emitted by the compiler is
modelled here by `execFrags`), a parameter-extraction function and a
parameter count.

Strings are modelled as `String` at the API boundary and as `List Char`
inside the engine.  JavaScript `string.split('/')` is `splitOnSlash`,
`array.join('/')` is `joinSlash`.
-/

/-- the character class `[^/#+]` used by the wildcard regex fragments -/
def isSegChar (c : Char) : Bool :=
  c ≠ '/' && c ≠ '#' && c ≠ '+'

/-- characters escaped by `matchOperatorsRe` in PatternHelpers.ts:
the regex character class is `|\{}()[]^$+*?.` (each is a JS regex
metacharacter). -/
def metaChars : List Char :=
  ['|', '\\', '{', '}', '(', ')', '[', ']', '^', '$', '+', '*', '?', '.']

/-- `escapeStringRegexp` on characters: `str.replace(matchOperatorsRe, backslash-dollar-amp)`
prefixes every metacharacter with a backslash. -/
def escapeChars : List Char → List Char
  | [] => []
  | c :: cs => if c ∈ metaChars then '\\' :: c :: escapeChars cs else c :: escapeChars cs

/-- `escapeStringRegexp` of PatternHelpers.ts. -/
def escapeStringRegexp (s : String) : String :=
  ⟨escapeChars s.data⟩

/-- JavaScript `string.split('/')`: the empty string splits to a single empty
segment; a trailing separator yields a trailing empty segment. -/
def splitOnSlash : List Char → List (List Char)
  | [] => [[]]
  | c :: rest =>
    if c = '/' then [] :: splitOnSlash rest
    else
      match splitOnSlash rest with
      | s :: ss => (c :: s) :: ss
      | [] => [[c]]

/-- JavaScript `array.join` with a one-character separator. -/
def joinChar (sep : Char) : List (List Char) → List Char
  | [] => []
  | [s] => s
  | s :: s2 :: rest => s ++ sep :: joinChar sep (s2 :: rest)

/-- JavaScript `array.join('/')`. -/
def joinSlash (xs : List (List Char)) : List Char :=
  joinChar '/' xs

/-- `TokenTypes` of PatternHelpers.ts. -/
inductive TokenTypes
  | SINGLE
  | MULTI
  | RAW
deriving DecidableEq, Repr

/-- `Token` of PatternHelpers.ts.  `name` is absent (`none`) for raw tokens and
present (possibly the empty string) for wildcard tokens; `piece` and `last`
are the two regex fragment forms, stored as the literal regex source text
exactly as the TypeScript code builds them. -/
structure Token where
  type : TokenTypes
  name : Option String
  piece : String
  last : String
deriving DecidableEq, Repr

/-- `processSingle` of PatternHelpers.ts: a `+`-initial segment. -/
def processSingle (token : List Char) : Token :=
  { type := TokenTypes.SINGLE
    name := some ⟨token.drop 1⟩
    piece := "([^/#+]+/)"
    last := "([^/#+]+/?)" }

/-- `processMulti` of PatternHelpers.ts: a `#`-initial segment; throws unless
it is the last segment. -/
def processMulti (token : List Char) (last : Bool) : Except String Token :=
  if !last then Except.error "# wildcard must be at the end of the pattern"
  else Except.ok
    { type := TokenTypes.MULTI
      name := some ⟨token.drop 1⟩
      piece := "((?:[^/#+]+/)*)"
      last := "((?:[^/#+]+/?)*)" }

/-- `processRaw` of PatternHelpers.ts: any other segment, regex-escaped and
embedded literally. -/
def processRaw (token : List Char) : Token :=
  let esc := escapeChars token
  { type := TokenTypes.RAW
    name := none
    piece := ⟨esc ++ ['/']⟩
    last := ⟨esc ++ ['/', '?']⟩ }

/-- `processToken` of PatternHelpers.ts: dispatch on the first character of
the segment (an empty segment is raw, as `token[0]` is `undefined`). -/
def processToken (token : List Char) (isLast : Bool) : Except String Token :=
  match token with
  | [] => Except.ok (processRaw token)
  | c :: _ =>
    if c = '+' then Except.ok (processSingle token)
    else if c = '#' then processMulti token isLast
    else Except.ok (processRaw token)

/-- `tokenize` mapped over the segments: the callback of
`pattern.split('/').map(processToken)` receives the index and the array, and
uses them only to compute whether the segment is the last one. -/
def tokenizeAux : List (List Char) → Except String (List Token)
  | [] => Except.ok []
  | [seg] => do
    let t ← processToken seg true
    Except.ok [t]
  | seg :: s2 :: rest => do
    let t ← processToken seg false
    let ts ← tokenizeAux (s2 :: rest)
    Except.ok (t :: ts)

/-- `tokenize` of PatternHelpers.ts. -/
def tokenize (pattern : String) : Except String (List Token) :=
  tokenizeAux (splitOnSlash pattern.data)

/-- the semantic forms a token fragment can take in the assembled regex.
Raw fragments carry the escaped literal regex text (without the trailing
`/` resp. `/?` of the stored fragment string). -/
inductive Frag
  | rawPiece (esc : List Char)
  | rawLast (esc : List Char)
  | singlePiece
  | singleLast
  | multiPiece
  | multiLast
deriving DecidableEq, Repr

/-- the regex source text of a fragment form, for relating the semantic
fragment list to the assembled regex string. -/
def fragRender : Frag → String
  | Frag.rawPiece esc => ⟨esc ++ ['/']⟩
  | Frag.rawLast esc => ⟨esc ++ ['/', '?']⟩
  | Frag.singlePiece => "([^/#+]+/)"
  | Frag.singleLast => "([^/#+]+/?)"
  | Frag.multiPiece => "((?:[^/#+]+/)*)"
  | Frag.multiLast => "((?:[^/#+]+/?)*)"

/-- the fragment contributed by a token: its `piece` form or its `last` form.
For raw tokens the escaped text is recovered from the stored fragment
strings (`piece` is the escaped text followed by `/`, `last` is the escaped
text followed by `/?`). -/
def tokenFrag (t : Token) (useLast : Bool) : Frag :=
  match t.type, useLast with
  | TokenTypes.RAW, false => Frag.rawPiece t.piece.data.dropLast
  | TokenTypes.RAW, true => Frag.rawLast t.last.data.dropLast.dropLast
  | TokenTypes.SINGLE, false => Frag.singlePiece
  | TokenTypes.SINGLE, true => Frag.singleLast
  | TokenTypes.MULTI, false => Frag.multiPiece
  | TokenTypes.MULTI, true => Frag.multiLast

/-- the `beforeMulti` condition of `buildRegularExpression` seen from the
current token: exactly one token follows and it is a multi token. -/
def isBeforeMulti : List Token → Bool
  | [m] => m.type == TokenTypes.MULTI
  | _ => false

/-- the fragment selection of `buildRegularExpression`: every token
contributes its `piece` form except the last token and, when the last token
is a multi wildcard, also the second-to-last token, which contribute their
`last` forms. -/
def buildFrags : List Token → List Frag
  | [] => []
  | [t] => [tokenFrag t true]
  | t :: t2 :: rest => tokenFrag t (isBeforeMulti (t2 :: rest)) :: buildFrags (t2 :: rest)

/-- the reduce of `buildRegularExpression`, written with an explicit index:
at index `i` of `all`, `isLast` is `index == tokens.length - 1` and
`beforeMulti` is `index === tokens.length - 2 && getLastItem(tokens).type == MULTI`
(integer comparisons, rendered here as `i + 1 == all.length` and
`i + 2 == all.length`). -/
def buildRegexCore (all : List Token) : Nat → List Token → String
  | _, [] => ""
  | i, t :: rest =>
    let isLast : Bool := i + 1 == all.length
    let beforeMulti : Bool :=
      (i + 2 == all.length) && ((all.getLast?).map Token.type == some TokenTypes.MULTI)
    (if isLast || beforeMulti then t.last else t.piece) ++ buildRegexCore all (i + 1) rest

/-- `buildRegularExpression` of PatternHelpers.ts, as the regex source string
handed to `new RegExp` (anchored template). -/
def buildRegularExpression (tokens : List Token) : String :=
  "^" ++ buildRegexCore tokens 0 tokens ++ "$"

/-- consume a literal-style regex (escape sequences, literal characters, and
the one metacharacter `.` should it appear unescaped) against an input,
returning the unconsumed rest.  This is the JS regex engine's behaviour on
the raw-token fragment bodies, which consist solely of literal characters
and backslash escapes after `escapeStringRegexp`. -/
def litConsume : List Char → List Char → Option (List Char)
  | [], input => some input
  | c :: rest, input =>
    if c = '\\' then
      match rest, input with
      | e :: rest2, i :: is => if i = e then litConsume rest2 is else none
      | _, _ => none
    else if c = '.' then
      match input with
      | _ :: is => litConsume rest is
      | [] => none
    else
      match input with
      | i :: is => if i = c then litConsume rest is else none
      | [] => none

/-- whether an input is matched (entirely) by the final multi fragment
`((?:[^/#+]+/?)*)` of the assembled regex: splitting on `/`, every part
before the last is a nonempty run of `[^/#+]` characters, and the last part
is a possibly empty such run (a trailing `/` of the input leaves a trailing
empty part). -/
def multiPartsOk : List (List Char) → Bool
  | [] => true
  | [p] => p.all isSegChar
  | p :: p2 :: rest => (!p.isEmpty && p.all isSegChar) && multiPartsOk (p2 :: rest)

/-- the whole-input test for the final multi fragment. -/
def multiOk (cs : List Char) : Bool :=
  multiPartsOk (splitOnSlash cs)

/--
Model of `RegExp.exec` (with `^...$` anchoring) of the JS engine on the
fragment sequence assembled by `buildRegularExpression`, returning the list
of capture-group values in order on success.

The JS engine is a leftmost, greedy, backtracking matcher; on the fragment
shapes the compiler emits its behaviour reduces to the deterministic
procedure below:
* `rawPiece`: the escaped literal must match, followed by `/`; no choice
  points exist inside a literal.
* `singlePiece` (`([^/#+]+/)`): the plus is greedy but the run cannot contain
  `/`, so only the maximal run followed immediately by `/` can match.
* `rawLast` and `singleLast` (fragments ending in an optional `/`): the
  optional `/` is tried greedily first and the engine backtracks to the
  slash-less alternative if the rest of the regex fails.  Backtracking the
  plus of `singleLast` to a shorter run can never turn a failure into a
  success: the character after a shorter run is a `[^/#+]` character, so the
  optional `/` matches nothing there and the continuation sees the same
  slash structure.  It is therefore not modelled.
* `multiLast` (`((?:[^/#+]+/?)*)`): a multi token is compiled only in final
  position, so this fragment is always followed directly by the `$` anchor;
  the greedy star then succeeds exactly when the entire remaining input has
  the `multiOk` shape, capturing all of it.
* `multiPiece` is never emitted by `buildRegularExpression` (a multi token
  anywhere but last aborts tokenization), so its case is vacuous.
-/
def execFrags : List Frag → List Char → Option (List (List Char))
  | [], input => if input.isEmpty then some [] else none
  | Frag.rawPiece esc :: rest, input =>
    (match litConsume esc input with
     | none => none
     | some [] => none
     | some (c :: rem) => if c = '/' then execFrags rest rem else none)
  | Frag.rawLast esc :: rest, input =>
    (match litConsume esc input with
     | none => none
     | some [] => execFrags rest []
     | some (c :: rem) =>
       if c = '/' then
         match execFrags rest rem with
         | some caps => some caps
         | none => execFrags rest ('/' :: rem)
       else execFrags rest (c :: rem))
  | Frag.singlePiece :: rest, input =>
    (let run := input.takeWhile isSegChar
     if run.isEmpty then none
     else
       match input.drop run.length with
       | [] => none
       | c :: rem => if c = '/' then (execFrags rest rem).map (fun caps => (run ++ ['/']) :: caps) else none)
  | Frag.singleLast :: rest, input =>
    (let run := input.takeWhile isSegChar
     if run.isEmpty then none
     else
       match input.drop run.length with
       | [] => (execFrags rest []).map (fun caps => run :: caps)
       | c :: rem =>
         if c = '/' then
           match execFrags rest rem with
           | some caps => some ((run ++ ['/']) :: caps)
           | none => (execFrags rest ('/' :: rem)).map (fun caps => run :: caps)
         else (execFrags rest (c :: rem)).map (fun caps => run :: caps))
  | [Frag.multiLast], input =>
    if multiOk input then some [input] else none
  | Frag.multiLast :: _ :: _, _ => none
  | Frag.multiPiece :: _, _ => none

/-- parameter values: a JS string or an ordered JS array of strings
(the tagged union described for the dynamically typed parameter bags). -/
inductive Value
  | scalar (s : String)
  | sequence (xs : List String)
deriving DecidableEq, Repr

/-- a JS object of parameter values, as an association list; key lookup and
update below give it JS own-property semantics. -/
abbrev Params := List (String × Value)

/-- JS property read `params[key]` (and the `key in params` test via
`Option.isSome`); own properties only. -/
def lookupParam (params : Params) (k : String) : Option Value :=
  (params.find? (fun pr => pr.1 == k)).map (fun pr => pr.2)

/-- JS property write `params[key] = v`: overwrite an existing key in place,
otherwise append. -/
def objSet : Params → String → Value → Params
  | [], k, v => [(k, v)]
  | (k2, v2) :: rest, k, v =>
    if k2 = k then (k2, v) :: rest else (k2, v2) :: objSet rest k v

/-- `removeRawTokens` of PatternHelpers.ts. -/
def removeRawTokens (tokens : List Token) : List Token :=
  tokens.filter (fun t => t.type ≠ TokenTypes.RAW)

/-- the per-capture value computation inside `buildParameterFunction`:
a multi capture is split on `/` and a trailing empty element (a trailing
slash artifact, or the `getLastItem` of an empty array being undefined) is
dropped; any other capture is a string, minus a single trailing `/`. -/
def captureParam (token : Token) (capture : String) : Value :=
  if token.type = TokenTypes.MULTI then
    let param := splitOnSlash capture.data
    let param := if ((param.getLast?).getD []).isEmpty then param.dropLast else param
    Value.sequence (param.map (fun cs => (⟨cs⟩ : String)))
  else if capture.data.getLast? = some '/' then
    Value.scalar ⟨capture.data.dropLast⟩
  else
    Value.scalar capture

/-- one step of the `forEach` inside `buildParameterFunction`: a pair of a
capture and its non-raw token; a token with a falsy name (absent, or the
empty string) contributes nothing, otherwise the capture's decoded value is
written at the token's name. -/
def paramStep (params : Params) (pr : String × Token) : Params :=
  match pr.2.name with
  | none => params
  | some name =>
    if name = "" then params
    else objSet params name (captureParam pr.2 pr.1)

/-- `buildParameterFunction` of PatternHelpers.ts, applied to a match result
(`none` models a `null` `RegExpExecArray`).  The captures
(`results.slice(1)`) are walked in step with the non-raw tokens. -/
def buildParameterFunction (tokens : List Token) (results : Option (List String)) : Params :=
  match results with
  | none => []
  | some res =>
    ((res.drop 1).zip (removeRawTokens tokens)).foldl paramStep []

/-- `buildParameterCount` of PatternHelpers.ts: tokens that are not raw and
carry a nonempty name. -/
def buildParameterCount (tokens : List Token) : Nat :=
  (tokens.filter (fun t =>
    t.type ≠ TokenTypes.RAW &&
      match t.name with
      | some n => n.length > 0
      | none => false)).length

/-- `buildTopic` of PatternHelpers.ts: raw tokens contribute
`token.piece.slice(0, -1)` (the regex-escaped text), single wildcards `+`,
the multi wildcard `#`, rejoined with `/`. -/
def buildTopic (tokens : List Token) : String :=
  ⟨joinSlash (tokens.map (fun t =>
    match t.type with
    | TokenTypes.RAW => t.piece.data.dropLast
    | TokenTypes.SINGLE => ['+']
    | TokenTypes.MULTI => ['#']))⟩

/-- the JS string coercion of a parameter value when it is embedded in
`array.join('/')`: an array stringifies to its comma-joined elements. -/
def valueToTopicText : Value → List Char
  | Value.scalar s => s.data
  | Value.sequence xs => joinChar ',' (xs.map String.data)

/-- the per-segment substitution of `Pattern.buildParameterizedTopic`:
a `+`-initial segment whose name is a key of `params` becomes the value
(whatever it is); a `#`-initial segment whose name is a key becomes the
value joined with `/` when it is an array, else the value; any other
segment, and wildcard segments with no matching key, pass through. -/
def substSegC (params : Params) (seg : List Char) : List Char :=
  match seg with
  | [] => []
  | c :: key =>
    if c = '+' then
      match lookupParam params ⟨key⟩ with
      | some v => valueToTopicText v
      | none => c :: key
    else if c = '#' then
      match lookupParam params ⟨key⟩ with
      | some (Value.sequence xs) => joinSlash (xs.map String.data)
      | some (Value.scalar s) => s.data
      | none => c :: key
    else c :: key

/-- the compiled `Pattern` facade (`src/unnamed/part_000`): the original
pattern string, the derived subscribable topic, the assembled regex source,
and the token list (the state of the stored matcher, extraction closure and
parameter count). -/
structure Pattern where
  pattern : String
  topic : String
  regex : String
  tokens : List Token
  paramCount : Nat
deriving DecidableEq, Repr

/-- `Pattern.from`: compile a pattern string (the private constructor);
tokenization failure propagates as the thrown error. -/
def Pattern.compile (pattern : String) : Except String Pattern := do
  let tokens ← tokenize pattern
  Except.ok
    { pattern := pattern
      topic := buildTopic tokens
      regex := buildRegularExpression tokens
      tokens := tokens
      paramCount := buildParameterCount tokens }

/-- `Pattern.getTopic`. -/
def Pattern.getTopic (p : Pattern) : String := p.topic

/-- `Pattern.getPattern`. -/
def Pattern.getPattern (p : Pattern) : String := p.pattern

/-- `Pattern.getParameterCount`. -/
def Pattern.getParameterCount (p : Pattern) : Nat := p.paramCount

/-- `Pattern.match`: `this._regex.exec(topic)`; `none` is the `null`
no-match result, a successful exec array holds the full match (the whole
topic, as the regex is anchored) followed by the capture groups. -/
def Pattern.matchTopic (p : Pattern) (topic : String) : Option (List String) :=
  (execFrags (buildFrags p.tokens) topic.data).map
    (fun caps => topic :: caps.map (fun cs => (⟨cs⟩ : String)))

/-- `Pattern.getParameters`: delegate to the stored extraction function. -/
def Pattern.getParameters (p : Pattern) (res : Option (List String)) : Params :=
  buildParameterFunction p.tokens res

/-- `Pattern.buildParameterizedTopic`: walk the original pattern's segments,
substitute parameter values into wildcard segments, rejoin with `/`. -/
def Pattern.buildParameterizedTopic (p : Pattern) (params : Params) : String :=
  ⟨joinSlash ((splitOnSlash p.pattern.data).map (substSegC params))⟩

/-- a nonempty segment text acceptable to a wildcard's `[^/#+]+` run. -/
def validSeg (cs : List Char) : Bool :=
  !cs.isEmpty && cs.all isSegChar

/-- a `#`-initial segment. -/
def segIsHash : List Char → Bool
  | [] => false
  | c :: _ => c == '#'

/-- a `+`-initial segment. -/
def segIsPlus : List Char → Bool
  | [] => false
  | c :: _ => c == '+'

/-- a wildcard segment. -/
def segIsWildcard (s : List Char) : Bool :=
  segIsPlus s || segIsHash s

/-- the per-segment condition of a complete, type-correct, segment-valid
assignment: a wildcard segment must be named and its name bound to a value
of the right shape: a single wildcard to a scalar that is a nonempty run of
`[^/#+]` characters, a multi wildcard to a sequence of such runs (possibly
empty); a raw segment imposes nothing. -/
def validAssignSeg (params : Params) (s : List Char) : Bool :=
  match s with
  | [] => true
  | c :: key =>
    if c = '+' then
      !key.isEmpty &&
        (match lookupParam params ⟨key⟩ with
         | some (Value.scalar v) => validSeg v.data
         | _ => false)
    else if c = '#' then
      !key.isEmpty &&
        (match lookupParam params ⟨key⟩ with
         | some (Value.sequence xs) => xs.all (fun x => validSeg x.data)
         | _ => false)
    else true

/-- a complete, type-correct, segment-valid assignment for the wildcard
segments of a pattern. -/
def validAssignB (params : Params) (segs : List (List Char)) : Bool :=
  segs.all (validAssignSeg params)

/-- the assignment mentions only wildcard names of the pattern. -/
def coversOnlyB (params : Params) (segs : List (List Char)) : Bool :=
  params.all (fun pr => segs.contains ('+' :: pr.1.data) || segs.contains ('#' :: pr.1.data))

/-- the captures a successful match of the parameterized topic produces, in
source order: a single wildcard in non-final position (including directly
before a final multi wildcard) captures its value plus the separating `/`;
a final single wildcard captures its value; a final multi wildcard captures
the joined sequence; raw segments capture nothing. -/
def expectedCaps (params : Params) : List (List Char) → List (List Char)
  | [] => []
  | [seg] => if segIsWildcard seg then [substSegC params seg] else []
  | seg :: s2 :: rest =>
    (if segIsPlus seg then [substSegC params seg ++ ['/']] else []) ++
      expectedCaps params (s2 :: rest)

/-- the subscribable-topic rendering of one pattern segment as the code
produces it: wildcard segments become their bare sigils and raw segments
are rendered in regex-escaped form (`token.piece.slice(0, -1)`). -/
def topicSegRender (s : List Char) : List Char :=
  if segIsPlus s then ['+'] else if segIsHash s then ['#'] else escapeChars s

/-- the spec's claimed verbatim rendering of one pattern segment (the wording
of the subscribable-topic sentence): wildcard segments become their bare
sigils and raw segments appear character for character. -/
def topicSegVerbatim (s : List Char) : List Char :=
  if segIsPlus s then ['+'] else if segIsHash s then ['#'] else s

/-- well-formedness of a token's stored regex fragment strings: the fragment
strings are exactly the ones the token processors produce for the token's
kind.  Every token produced by `tokenize` satisfies this. -/
def Token.WF (t : Token) : Prop :=
  match t.type with
  | TokenTypes.SINGLE => t.piece = "([^/#+]+/)" ∧ t.last = "([^/#+]+/?)"
  | TokenTypes.MULTI => t.piece = "((?:[^/#+]+/)*)" ∧ t.last = "((?:[^/#+]+/?)*)"
  | TokenTypes.RAW => ∃ esc, t.piece = ⟨esc ++ ['/']⟩ ∧ t.last = ⟨esc ++ ['/', '?']⟩

/-- the compiled pattern of a successful `Pattern.from`, with an inert
placeholder for the error case, so that concrete compiled patterns can be
written as closed terms. -/
def patOrDefault : Except String Pattern → Pattern
  | Except.ok pat => pat
  | Except.error _ =>
    { pattern := "", topic := "", regex := "", tokens := [], paramCount := 0 }

/-- the README's example pattern, compiled. -/
def pDev : Pattern := patOrDefault (Pattern.compile "devices/+deviceId/status")

/-- a pattern with an unnamed single wildcard next to a named one, compiled. -/
def pUnnamed : Pattern := patOrDefault (Pattern.compile "a/+/+x")

/-- a pattern whose only segment holds a regex metacharacter, compiled. -/
def pDot : Pattern := patOrDefault (Pattern.compile "a.b")

/-- a pattern ending in a named multi wildcard, compiled. -/
def pMulti : Pattern := patOrDefault (Pattern.compile "devices/#rest")

/-! ### Lemmas: segment splitting and joining -/

theorem splitOnSlash_ne_nil (cs : List Char) : splitOnSlash cs ≠ [] := by
  induction cs with
  | nil => simp [splitOnSlash]
  | cons c rest ih =>
    rw [splitOnSlash]
    by_cases hc : c = '/'
    · simp [hc]
    · simp only [if_neg hc]
      cases h : splitOnSlash rest with
      | nil => simp
      | cons s ss => simp

theorem joinSlash_cons {s : List Char} {rest : List (List Char)} (h : rest ≠ []) :
    joinSlash (s :: rest) = s ++ '/' :: joinSlash rest := by
  cases rest with
  | nil => exact absurd rfl h
  | cons t ts => rfl

theorem mem_splitOnSlash_no_slash {cs s : List Char} (h : s ∈ splitOnSlash cs) : '/' ∉ s := by
  induction cs generalizing s with
  | nil =>
    simp [splitOnSlash] at h
    simp [h]
  | cons c rest ih =>
    rw [splitOnSlash] at h
    by_cases hc : c = '/'
    · simp only [if_pos hc] at h
      rcases List.mem_cons.mp h with h1 | h1
      · simp [h1]
      · exact ih h1
    · simp only [if_neg hc] at h
      cases heq : splitOnSlash rest with
      | nil => exact absurd heq (splitOnSlash_ne_nil rest)
      | cons t ts =>
        rw [heq] at h
        rcases List.mem_cons.mp h with h1 | h1
        · subst h1
          intro hmem
          rcases List.mem_cons.mp hmem with h2 | h2
          · exact hc h2.symm
          · exact ih (by rw [heq]; exact List.mem_cons_self t ts) h2
        · exact ih (by rw [heq]; exact List.mem_cons_of_mem t h1)

theorem joinSlash_splitOnSlash (cs : List Char) : joinSlash (splitOnSlash cs) = cs := by
  induction cs with
  | nil => rfl
  | cons c rest ih =>
    rw [splitOnSlash]
    by_cases hc : c = '/'
    · simp only [if_pos hc]
      rw [joinSlash_cons (splitOnSlash_ne_nil rest), ih, hc]
      rfl
    · simp only [if_neg hc]
      cases heq : splitOnSlash rest with
      | nil => exact absurd heq (splitOnSlash_ne_nil rest)
      | cons t ts =>
        rw [heq] at ih
        cases ts with
        | nil =>
          show joinSlash [c :: t] = c :: rest
          have : joinSlash [t] = rest := ih
          have ht : t = rest := this
          rw [show joinSlash [c :: t] = c :: t from rfl, ht]
        | cons u us =>
          rw [joinSlash_cons (by simp)]
          rw [joinSlash_cons (by simp)] at ih
          show (c :: t) ++ '/' :: joinSlash (u :: us) = c :: rest
          rw [List.cons_append]
          rw [ih]

theorem splitOnSlash_of_no_slash {cs : List Char} (h : '/' ∉ cs) : splitOnSlash cs = [cs] := by
  induction cs with
  | nil => rfl
  | cons c rest ih =>
    rw [splitOnSlash]
    have hc : c ≠ '/' := fun hh => h (hh ▸ List.mem_cons_self c rest)
    simp only [if_neg hc]
    rw [ih (fun hh => h (List.mem_cons_of_mem c hh))]

theorem splitOnSlash_append {x t : List Char} (h : '/' ∉ x) :
    splitOnSlash (x ++ '/' :: t) = x :: splitOnSlash t := by
  induction x with
  | nil => simp [splitOnSlash]
  | cons c rest ih =>
    have hc : c ≠ '/' := fun hh => h (hh ▸ List.mem_cons_self c rest)
    rw [List.cons_append, splitOnSlash]
    simp only [if_neg hc]
    rw [ih (fun hh => h (List.mem_cons_of_mem c hh))]

theorem splitOnSlash_joinSlash {xs : List (List Char)} (h1 : xs ≠ [])
    (h2 : ∀ x ∈ xs, '/' ∉ x) : splitOnSlash (joinSlash xs) = xs := by
  induction xs with
  | nil => exact absurd rfl h1
  | cons x rest ih =>
    cases rest with
    | nil =>
      show splitOnSlash (joinSlash [x]) = [x]
      exact splitOnSlash_of_no_slash (h2 x (List.mem_cons_self x []))
    | cons y ys =>
      rw [joinSlash_cons (by simp)]
      rw [splitOnSlash_append (h2 x (List.mem_cons_self x (y :: ys)))]
      rw [ih (by simp) (fun z hz => h2 z (List.mem_cons_of_mem x hz))]

/-! ### Lemmas: regex escaping and literal consumption -/

theorem backslash_mem_metaChars : '\\' ∈ metaChars := by decide

theorem dot_mem_metaChars : '.' ∈ metaChars := by decide

theorem litConsume_cons_lit {c : Char} (cs input : List Char) (hb : c ≠ '\\')
    (hd : c ≠ '.') :
    litConsume (c :: cs) input =
      (match input with
       | i :: is => if i = c then litConsume cs is else none
       | [] => none) := by
  rw [litConsume.eq_def]
  simp only [if_neg hb, if_neg hd]

theorem litConsume_backslash (c : Char) (cs input : List Char) :
    litConsume ('\\' :: c :: cs) input =
      (match input with
       | i :: is => if i = c then litConsume cs is else none
       | [] => none) := by
  rw [litConsume.eq_def]
  simp only [if_pos rfl]
  cases input <;> rfl

theorem litConsume_escapeChars_append (s r : List Char) :
    litConsume (escapeChars s) (s ++ r) = some r := by
  induction s generalizing r with
  | nil => rfl
  | cons c cs ih =>
    rw [escapeChars]
    by_cases hm : c ∈ metaChars
    · simp only [if_pos hm]
      rw [litConsume_backslash]
      show (if c = c then litConsume (escapeChars cs) (cs ++ r) else none) = some r
      simp only [if_pos rfl]
      exact ih r
    · have hb : c ≠ '\\' := fun h => hm (h ▸ backslash_mem_metaChars)
      have hd : c ≠ '.' := fun h => hm (h ▸ dot_mem_metaChars)
      simp only [if_neg hm]
      rw [litConsume_cons_lit _ _ hb hd]
      show (if c = c then litConsume (escapeChars cs) (cs ++ r) else none) = some r
      simp only [if_pos rfl]
      exact ih r

theorem litConsume_escapeChars_eq {s : List Char} :
    ∀ {input r : List Char}, litConsume (escapeChars s) input = some r → input = s ++ r := by
  induction s with
  | nil =>
    intro input r h
    simpa [escapeChars, litConsume] using h
  | cons c cs ih =>
    intro input r h
    rw [escapeChars] at h
    by_cases hm : c ∈ metaChars
    · simp only [if_pos hm] at h
      rw [litConsume_backslash] at h
      cases input with
      | nil => exact absurd h (by simp)
      | cons i is =>
        have h2 : (if i = c then litConsume (escapeChars cs) is else none) = some r := h
        by_cases hic : i = c
        · rw [if_pos hic] at h2
          rw [hic, List.cons_append, ih h2]
        · rw [if_neg hic] at h2
          exact absurd h2 (by simp)
    · have hb : c ≠ '\\' := fun hh => hm (hh ▸ backslash_mem_metaChars)
      have hd : c ≠ '.' := fun hh => hm (hh ▸ dot_mem_metaChars)
      simp only [if_neg hm] at h
      rw [litConsume_cons_lit _ _ hb hd] at h
      cases input with
      | nil => exact absurd h (by simp)
      | cons i is =>
        have h2 : (if i = c then litConsume (escapeChars cs) is else none) = some r := h
        by_cases hic : i = c
        · rw [if_pos hic] at h2
          rw [hic, List.cons_append, ih h2]
        · rw [if_neg hic] at h2
          exact absurd h2 (by simp)

theorem mem_escapeChars {s : List Char} {c : Char} (h : c ∈ escapeChars s) :
    c = '\\' ∨ c ∈ s := by
  induction s with
  | nil => simp [escapeChars] at h
  | cons d ds ih =>
    rw [escapeChars] at h
    by_cases hm : d ∈ metaChars
    · simp only [if_pos hm] at h
      rcases List.mem_cons.mp h with h1 | h1
      · exact Or.inl h1
      · rcases List.mem_cons.mp h1 with h2 | h2
        · exact Or.inr (h2 ▸ List.mem_cons_self d ds)
        · rcases ih h2 with h3 | h3
          · exact Or.inl h3
          · exact Or.inr (List.mem_cons_of_mem d h3)
    · simp only [if_neg hm] at h
      rcases List.mem_cons.mp h with h1 | h1
      · exact Or.inr (h1 ▸ List.mem_cons_self d ds)
      · rcases ih h1 with h3 | h3
        · exact Or.inl h3
        · exact Or.inr (List.mem_cons_of_mem d h3)

/-! ### Lemmas: character runs -/

theorem takeWhile_append_all {v : List Char} (rest : List Char)
    (h : ∀ c ∈ v, isSegChar c = true) :
    (v ++ rest).takeWhile isSegChar = v ++ rest.takeWhile isSegChar := by
  induction v with
  | nil => rfl
  | cons c cs ih =>
    rw [List.cons_append, List.takeWhile_cons]
    rw [h c (List.mem_cons_self c cs)]
    simp only [ite_true]
    rw [ih (fun d hd => h d (List.mem_cons_of_mem c hd))]
    simp

theorem takeWhile_slash (t : List Char) : ('/' :: t).takeWhile isSegChar = [] := by
  rw [List.takeWhile_cons]
  simp [isSegChar]

theorem run_before_slash {v : List Char} (t : List Char)
    (h : ∀ c ∈ v, isSegChar c = true) :
    (v ++ '/' :: t).takeWhile isSegChar = v := by
  rw [takeWhile_append_all ('/' :: t) h, takeWhile_slash]
  simp

theorem run_whole {v : List Char} (h : ∀ c ∈ v, isSegChar c = true) :
    v.takeWhile isSegChar = v := by
  have := takeWhile_append_all (v := v) [] h
  simpa using this

theorem validSeg_all {v : List Char} (h : validSeg v = true) : ∀ c ∈ v, isSegChar c = true := by
  rw [validSeg, Bool.and_eq_true] at h
  intro c hc
  exact List.all_eq_true.mp h.2 c hc

theorem validSeg_ne_nil {v : List Char} (h : validSeg v = true) : v ≠ [] := by
  rw [validSeg, Bool.and_eq_true] at h
  intro hv
  rw [hv] at h
  simp at h

theorem validSeg_no_slash {v : List Char} (h : validSeg v = true) : '/' ∉ v := by
  intro hmem
  have := validSeg_all h '/' hmem
  simp [isSegChar] at this

/-! ### Lemmas: the multi fragment language -/

theorem multiPartsOk_all_segChar {parts : List (List Char)}
    (h : multiPartsOk parts = true) : ∀ p ∈ parts, ∀ c ∈ p, isSegChar c = true := by
  induction parts with
  | nil => simp
  | cons p rest ih =>
    cases rest with
    | nil =>
      intro q hq c hc
      rcases List.mem_cons.mp hq with h1 | h1
      · subst h1
        exact List.all_eq_true.mp (by simpa [multiPartsOk] using h) c hc
      · simp at h1
    | cons p2 prest =>
      rw [multiPartsOk, Bool.and_eq_true] at h
      obtain ⟨ha, hrest⟩ := h
      rw [Bool.and_eq_true] at ha
      intro q hq c hc
      rcases List.mem_cons.mp hq with h1 | h1
      · subst h1
        exact List.all_eq_true.mp ha.2 c hc
      · exact ih hrest q h1 c hc

theorem multiPartsOk_of_valid {xs : List (List Char)}
    (h : ∀ x ∈ xs, validSeg x = true) : multiPartsOk xs = true := by
  induction xs with
  | nil => rfl
  | cons x rest ih =>
    cases rest with
    | nil =>
      rw [multiPartsOk]
      exact List.all_eq_true.mpr (validSeg_all (h x (List.mem_cons_self x [])))
    | cons y ys =>
      rw [multiPartsOk, Bool.and_eq_true]
      constructor
      · rw [Bool.and_eq_true]
        have hx := h x (List.mem_cons_self x (y :: ys))
        constructor
        · simpa using validSeg_ne_nil hx
        · exact List.all_eq_true.mpr (validSeg_all hx)
      · exact ih (fun z hz => h z (List.mem_cons_of_mem x hz))

theorem splitOnSlash_joinSlash_of_valid {xs : List (List Char)} (h1 : xs ≠ [])
    (h2 : ∀ x ∈ xs, validSeg x = true) : splitOnSlash (joinSlash xs) = xs :=
  splitOnSlash_joinSlash h1 (fun x hx => validSeg_no_slash (h2 x hx))

theorem multiOk_joinSlash {xs : List (List Char)}
    (h : ∀ x ∈ xs, validSeg x = true) : multiOk (joinSlash xs) = true := by
  cases xs with
  | nil => rfl
  | cons x rest =>
    rw [multiOk, splitOnSlash_joinSlash_of_valid (by simp) h]
    exact multiPartsOk_of_valid h

theorem mem_joinChar {sep : Char} {xs : List (List Char)} {c : Char}
    (h : c ∈ joinChar sep xs) : c = sep ∨ ∃ x ∈ xs, c ∈ x := by
  induction xs with
  | nil => simp [joinChar] at h
  | cons x rest ih =>
    cases rest with
    | nil =>
      refine Or.inr ⟨x, List.mem_cons_self x [], ?_⟩
      simpa [joinChar] using h
    | cons y ys =>
      rw [joinChar] at h
      rcases List.mem_append.mp h with h1 | h1
      · exact Or.inr ⟨x, List.mem_cons_self x (y :: ys), h1⟩
      · rcases List.mem_cons.mp h1 with h2 | h2
        · exact Or.inl h2
        · rcases ih h2 with h3 | ⟨z, hz, hcz⟩
          · exact Or.inl h3
          · exact Or.inr ⟨z, List.mem_cons_of_mem x hz, hcz⟩

theorem multiOk_chars {cs : List Char} (h : multiOk cs = true) :
    ∀ c ∈ cs, c = '/' ∨ isSegChar c = true := by
  intro c hc
  have hcs : c ∈ joinSlash (splitOnSlash cs) := by
    rw [joinSlash_splitOnSlash]
    exact hc
  rcases mem_joinChar hcs with h1 | ⟨p, hp, hcp⟩
  · exact Or.inl h1
  · exact Or.inr (multiPartsOk_all_segChar h p hp c hcp)

theorem multiOk_false_of_hash {cs : List Char} (h : '#' ∈ cs) : multiOk cs = false := by
  by_contra hcon
  have := multiOk_chars (by revert hcon; cases multiOk cs <;> simp) '#' h
  rcases this with h1 | h1
  · exact absurd h1 (by decide)
  · exact absurd h1 (by decide)

theorem multiPartsOk_trim {parts : List (List Char)} (h : multiPartsOk parts = true) :
    ∀ p ∈ (if ((parts.getLast?).getD []).isEmpty then parts.dropLast else parts), p ≠ [] := by
  induction parts with
  | nil => simp
  | cons p rest ih =>
    cases rest with
    | nil =>
      by_cases hp : p = []
      · subst hp
        simp
      · simp only [List.getLast?_singleton, Option.getD_some]
        rw [if_neg (by simpa using hp)]
        intro q hq
        rcases List.mem_cons.mp hq with h1 | h1
        · exact h1 ▸ hp
        · simp at h1
    | cons p2 prest =>
      rw [multiPartsOk, Bool.and_eq_true] at h
      have hp : p ≠ [] := by
        have h1 := h.1
        rw [Bool.and_eq_true] at h1
        simpa using h1.1
      have hlast : (p :: p2 :: prest).getLast? = (p2 :: prest).getLast? := by
        rw [List.getLast?_cons_cons]
      rw [hlast]
      have ihh := ih h.2
      by_cases hcond : (((p2 :: prest).getLast?).getD []).isEmpty = true
      · rw [if_pos hcond]
        rw [if_pos hcond] at ihh
        intro q hq
        rw [List.dropLast_cons_of_ne_nil (by simp)] at hq
        rcases List.mem_cons.mp hq with h1 | h1
        · exact h1 ▸ hp
        · exact ihh q h1
      · rw [if_neg hcond]
        rw [if_neg hcond] at ihh
        intro q hq
        rcases List.mem_cons.mp hq with h1 | h1
        · exact h1 ▸ hp
        · exact ihh q h1

/-! ### Lemmas: single steps of the modelled regex execution -/

theorem execFrags_nil_def (input : List Char) :
    execFrags [] input = if input.isEmpty then some [] else none := rfl

theorem execFrags_rawPiece_def (esc : List Char) (rest : List Frag) (input : List Char) :
    execFrags (Frag.rawPiece esc :: rest) input =
      (match litConsume esc input with
       | none => none
       | some [] => none
       | some (c :: rem) => if c = '/' then execFrags rest rem else none) := rfl

theorem execFrags_rawLast_def (esc : List Char) (rest : List Frag) (input : List Char) :
    execFrags (Frag.rawLast esc :: rest) input =
      (match litConsume esc input with
       | none => none
       | some [] => execFrags rest []
       | some (c :: rem) =>
         if c = '/' then
           match execFrags rest rem with
           | some caps => some caps
           | none => execFrags rest ('/' :: rem)
         else execFrags rest (c :: rem)) := rfl

theorem execFrags_singlePiece_def (rest : List Frag) (input : List Char) :
    execFrags (Frag.singlePiece :: rest) input =
      (let run := input.takeWhile isSegChar
       if run.isEmpty then none
       else
         match input.drop run.length with
         | [] => none
         | c :: rem =>
           if c = '/' then (execFrags rest rem).map (fun caps => (run ++ ['/']) :: caps)
           else none) := rfl

theorem execFrags_singleLast_def (rest : List Frag) (input : List Char) :
    execFrags (Frag.singleLast :: rest) input =
      (let run := input.takeWhile isSegChar
       if run.isEmpty then none
       else
         match input.drop run.length with
         | [] => (execFrags rest []).map (fun caps => run :: caps)
         | c :: rem =>
           if c = '/' then
             match execFrags rest rem with
             | some caps => some ((run ++ ['/']) :: caps)
             | none => (execFrags rest ('/' :: rem)).map (fun caps => run :: caps)
           else (execFrags rest (c :: rem)).map (fun caps => run :: caps)) := rfl

theorem execFrags_multiLast (input : List Char) :
    execFrags [Frag.multiLast] input = if multiOk input then some [input] else none := rfl

theorem escapeChars_length_ge (s : List Char) : s.length ≤ (escapeChars s).length := by
  induction s with
  | nil => simp [escapeChars]
  | cons c cs ih =>
    rw [escapeChars]
    by_cases hm : c ∈ metaChars
    · simp only [if_pos hm, List.length_cons]
      omega
    · simp only [if_neg hm, List.length_cons]
      omega

theorem escape_decomp {seg r t : List Char} (hr : escapeChars seg ++ t = seg ++ r) :
    ∃ d, escapeChars seg = seg ++ d ∧ r = d ++ t := by
  have hlen : seg.length ≤ (escapeChars seg).length := escapeChars_length_ge seg
  have htake : (escapeChars seg).take seg.length = seg := by
    have h1 : (escapeChars seg ++ t).take seg.length = (escapeChars seg).take seg.length :=
      List.take_append_of_le_length hlen
    have h2 : (seg ++ r).take seg.length = seg := List.take_left seg r
    rw [← h1, hr, h2]
  have hdecmp : escapeChars seg = seg ++ (escapeChars seg).drop seg.length := by
    conv_lhs => rw [← List.take_append_drop seg.length (escapeChars seg)]
    rw [htake]
  refine ⟨(escapeChars seg).drop seg.length, hdecmp, ?_⟩
  have : seg ++ ((escapeChars seg).drop seg.length ++ t) = seg ++ r := by
    rw [← List.append_assoc, ← hdecmp, hr]
  exact (List.append_cancel_left this).symm

theorem execFrags_rawPiece_chunk (seg : List Char) (rest : List Frag) (t : List Char) :
    execFrags (Frag.rawPiece (escapeChars seg) :: rest) (seg ++ '/' :: t) = execFrags rest t := by
  rw [execFrags_rawPiece_def]
  rw [litConsume_escapeChars_append seg ('/' :: t)]
  simp

theorem execFrags_rawPiece_esc_none (seg : List Char) (rest : List Frag) (t : List Char)
    (hne : escapeChars seg ≠ seg) (hnos : '/' ∉ seg) :
    execFrags (Frag.rawPiece (escapeChars seg) :: rest) (escapeChars seg ++ '/' :: t) = none := by
  rw [execFrags_rawPiece_def]
  cases h : litConsume (escapeChars seg) (escapeChars seg ++ '/' :: t) with
  | none => simp
  | some r =>
    have hr := litConsume_escapeChars_eq h
    obtain ⟨d, hd, hrd⟩ := escape_decomp hr
    cases d with
    | nil =>
      exact absurd (by simpa using hd) hne
    | cons c d2 =>
      have hc : c ≠ '/' := by
        intro hcc
        apply hnos
        have hmem : c ∈ escapeChars seg := by
          rw [hd]
          exact List.mem_append_right seg (List.mem_cons_self c d2)
        rcases mem_escapeChars hmem with h1 | h1
        · rw [hcc] at h1
          exact absurd h1 (by decide)
        · exact hcc ▸ h1
      subst hrd
      simp [hc]

theorem execFrags_rawLast_end (seg : List Char) (rest : List Frag) :
    execFrags (Frag.rawLast (escapeChars seg) :: rest) seg = execFrags rest [] := by
  rw [execFrags_rawLast_def]
  have h : litConsume (escapeChars seg) seg = some [] := by
    have := litConsume_escapeChars_append seg []
    rwa [List.append_nil] at this
  rw [h]

theorem execFrags_rawLast_slash (seg : List Char) (rest : List Frag) (t : List Char) :
    execFrags (Frag.rawLast (escapeChars seg) :: rest) (seg ++ '/' :: t) =
      (match execFrags rest t with
       | some caps => some caps
       | none => execFrags rest ('/' :: t)) := by
  rw [execFrags_rawLast_def]
  rw [litConsume_escapeChars_append seg ('/' :: t)]
  simp

theorem execFrags_singlePiece_chunk {v : List Char} (hv : validSeg v = true)
    (rest : List Frag) (t : List Char) :
    execFrags (Frag.singlePiece :: rest) (v ++ '/' :: t) =
      (execFrags rest t).map (fun caps => (v ++ ['/']) :: caps) := by
  simp only [execFrags_singlePiece_def]
  rw [run_before_slash t (validSeg_all hv)]
  rw [if_neg (by simpa using validSeg_ne_nil hv)]
  rw [List.drop_left]
  simp

theorem execFrags_singlePiece_nonseg (c : Char) (rest : List Frag) (t : List Char)
    (hc : isSegChar c = false) :
    execFrags (Frag.singlePiece :: rest) (c :: t) = none := by
  simp only [execFrags_singlePiece_def]
  rw [List.takeWhile_cons, hc]
  simp

theorem execFrags_singleLast_nonseg (c : Char) (rest : List Frag) (t : List Char)
    (hc : isSegChar c = false) :
    execFrags (Frag.singleLast :: rest) (c :: t) = none := by
  simp only [execFrags_singleLast_def]
  rw [List.takeWhile_cons, hc]
  simp

theorem execFrags_singleLast_end {v : List Char} (hv : validSeg v = true) (rest : List Frag) :
    execFrags (Frag.singleLast :: rest) v =
      (execFrags rest []).map (fun caps => v :: caps) := by
  simp only [execFrags_singleLast_def]
  rw [run_whole (validSeg_all hv)]
  rw [if_neg (by simpa using validSeg_ne_nil hv)]
  rw [List.drop_length]

theorem execFrags_singleLast_slash {v : List Char} (hv : validSeg v = true)
    (rest : List Frag) (t : List Char) :
    execFrags (Frag.singleLast :: rest) (v ++ '/' :: t) =
      (match execFrags rest t with
       | some caps => some ((v ++ ['/']) :: caps)
       | none => (execFrags rest ('/' :: t)).map (fun caps => v :: caps)) := by
  simp only [execFrags_singleLast_def]
  rw [run_before_slash t (validSeg_all hv)]
  rw [if_neg (by simpa using validSeg_ne_nil hv)]
  rw [List.drop_left]
  simp

theorem execFrags_rawLast_multiLast_hash (seg t : List Char) (hnos : '/' ∉ seg)
    (hhash : '#' ∈ t) :
    execFrags [Frag.rawLast (escapeChars seg), Frag.multiLast] (escapeChars seg ++ '/' :: t) =
      none := by
  rw [execFrags_rawLast_def]
  cases h : litConsume (escapeChars seg) (escapeChars seg ++ '/' :: t) with
  | none => simp
  | some r =>
    have hr := litConsume_escapeChars_eq h
    obtain ⟨d, hd, hrd⟩ := escape_decomp hr
    cases d with
    | nil =>
      simp only [List.nil_append] at hrd
      subst hrd
      have e1 : execFrags [Frag.multiLast] t = none := by
        rw [execFrags_multiLast, multiOk_false_of_hash hhash]
        simp
      have e2 : execFrags [Frag.multiLast] ('/' :: t) = none := by
        rw [execFrags_multiLast, multiOk_false_of_hash (List.mem_cons_of_mem '/' hhash)]
        simp
      simp [e1, e2]
    | cons c d2 =>
      have hc : c ≠ '/' := by
        intro hcc
        apply hnos
        have hmem : c ∈ escapeChars seg := by
          rw [hd]
          exact List.mem_append_right seg (List.mem_cons_self c d2)
        rcases mem_escapeChars hmem with h1 | h1
        · rw [hcc] at h1
          exact absurd h1 (by decide)
        · exact hcc ▸ h1
      subst hrd
      have hmm : '#' ∈ c :: (d2 ++ '/' :: t) := by
        apply List.mem_cons_of_mem
        apply List.mem_append_right
        exact List.mem_cons_of_mem '/' hhash
      have e3 : execFrags [Frag.multiLast] (c :: (d2 ++ '/' :: t)) = none := by
        rw [execFrags_multiLast, multiOk_false_of_hash hmm]
        simp
      simp [if_neg hc, e3]

/-! ### Lemmas: tokenization and fragment selection -/

theorem processToken_nil (b : Bool) : processToken [] b = Except.ok (processRaw []) := rfl

theorem processToken_cons (c : Char) (key : List Char) (b : Bool) :
    processToken (c :: key) b =
      (if c = '+' then Except.ok (processSingle (c :: key))
       else if c = '#' then processMulti (c :: key) b
       else Except.ok (processRaw (c :: key))) := rfl

theorem processMulti_true (seg : List Char) :
    processMulti seg true = Except.ok
      { type := TokenTypes.MULTI
        name := some ⟨seg.drop 1⟩
        piece := "((?:[^/#+]+/)*)"
        last := "((?:[^/#+]+/?)*)" } := rfl

theorem processMulti_false (seg : List Char) :
    processMulti seg false = Except.error "# wildcard must be at the end of the pattern" := rfl

theorem tokenFrag_processRaw_piece (seg : List Char) :
    tokenFrag (processRaw seg) false = Frag.rawPiece (escapeChars seg) := by
  show Frag.rawPiece ((escapeChars seg ++ ['/']).dropLast) = Frag.rawPiece (escapeChars seg)
  rw [List.dropLast_concat]

theorem tokenFrag_processRaw_last (seg : List Char) :
    tokenFrag (processRaw seg) true = Frag.rawLast (escapeChars seg) := by
  show Frag.rawLast ((escapeChars seg ++ ['/', '?']).dropLast.dropLast) =
    Frag.rawLast (escapeChars seg)
  have h : escapeChars seg ++ ['/', '?'] = (escapeChars seg ++ ['/']) ++ ['?'] := by simp
  rw [h, List.dropLast_concat, List.dropLast_concat]

theorem tokenFrag_processSingle_piece (seg : List Char) :
    tokenFrag (processSingle seg) false = Frag.singlePiece := rfl

theorem tokenFrag_processSingle_last (seg : List Char) :
    tokenFrag (processSingle seg) true = Frag.singleLast := rfl

theorem buildFrags_single (t : Token) : buildFrags [t] = [tokenFrag t true] := rfl

theorem buildFrags_cons₂ (t t2 : Token) (rest : List Token) :
    buildFrags (t :: t2 :: rest) =
      tokenFrag t (isBeforeMulti (t2 :: rest)) :: buildFrags (t2 :: rest) := rfl

theorem isBeforeMulti_single (m : Token) : isBeforeMulti [m] = (m.type == TokenTypes.MULTI) := rfl

theorem isBeforeMulti_cons₂ (a b : Token) (rest : List Token) :
    isBeforeMulti (a :: b :: rest) = false := rfl

theorem tokenizeAux_nil_inv {ts : List Token} (h : tokenizeAux [] = Except.ok ts) : ts = [] := by
  have h2 : (Except.ok [] : Except String (List Token)) = Except.ok ts := h
  cases h2
  rfl

theorem tokenizeAux_single_inv {seg : List Char} {ts : List Token}
    (h : tokenizeAux [seg] = Except.ok ts) :
    ∃ t, processToken seg true = Except.ok t ∧ ts = [t] := by
  rw [tokenizeAux] at h
  cases hp : processToken seg true with
  | error e =>
    rw [hp] at h
    have h2 : (Except.error e : Except String (List Token)) = Except.ok ts := h
    cases h2
  | ok t =>
    rw [hp] at h
    have h2 : (Except.ok [t] : Except String (List Token)) = Except.ok ts := h
    cases h2
    exact ⟨t, rfl, rfl⟩

theorem tokenizeAux_cons₂_inv {seg s2 : List Char} {rest : List (List Char)} {ts : List Token}
    (h : tokenizeAux (seg :: s2 :: rest) = Except.ok ts) :
    ∃ t ts2, processToken seg false = Except.ok t ∧
      tokenizeAux (s2 :: rest) = Except.ok ts2 ∧ ts = t :: ts2 := by
  rw [tokenizeAux] at h
  cases hp : processToken seg false with
  | error e =>
    rw [hp] at h
    have h2 : (Except.error e : Except String (List Token)) = Except.ok ts := h
    cases h2
  | ok t =>
    rw [hp] at h
    cases ht : tokenizeAux (s2 :: rest) with
    | error e =>
      rw [ht] at h
      have h2 : (Except.error e : Except String (List Token)) = Except.ok ts := h
      cases h2
    | ok ts2 =>
      rw [ht] at h
      have h2 : (Except.ok (t :: ts2) : Except String (List Token)) = Except.ok ts := h
      cases h2
      exact ⟨t, ts2, rfl, rfl, rfl⟩

theorem tokenizeAux_length {segs : List (List Char)} :
    ∀ {ts : List Token}, tokenizeAux segs = Except.ok ts → ts.length = segs.length := by
  induction segs with
  | nil =>
    intro ts h
    rw [tokenizeAux_nil_inv h]
    rfl
  | cons seg rest ih =>
    intro ts h
    cases rest with
    | nil =>
      obtain ⟨t, _, rfl⟩ := tokenizeAux_single_inv h
      rfl
    | cons s2 rest2 =>
      obtain ⟨t, ts2, _, ht2, rfl⟩ := tokenizeAux_cons₂_inv h
      simp [ih ht2]

theorem processToken_type_not_multi {seg : List Char} {b : Bool} {t : Token}
    (h : processToken seg b = Except.ok t) (hh : segIsHash seg = false) :
    (t.type == TokenTypes.MULTI) = false := by
  cases seg with
  | nil =>
    rw [processToken_nil] at h
    have h2 : (Except.ok (processRaw []) : Except String Token) = Except.ok t := h
    cases h2
    rfl
  | cons c key =>
    have hc : c ≠ '#' := by
      rw [segIsHash] at hh
      simpa using hh
    rw [processToken_cons] at h
    by_cases hcp : c = '+'
    · rw [if_pos hcp] at h
      have h2 : (Except.ok (processSingle (c :: key)) : Except String Token) = Except.ok t := h
      cases h2
      rfl
    · rw [if_neg hcp, if_neg hc] at h
      have h2 : (Except.ok (processRaw (c :: key)) : Except String Token) = Except.ok t := h
      cases h2
      rfl

theorem processToken_false_not_hash {seg : List Char} {t : Token}
    (h : processToken seg false = Except.ok t) : segIsHash seg = false := by
  cases seg with
  | nil => rfl
  | cons c key =>
    rw [segIsHash]
    by_cases hc : c = '#'
    · rw [processToken_cons] at h
      have hcp : c ≠ '+' := by rw [hc]; decide
      rw [if_neg hcp, if_pos hc, processMulti_false] at h
      have h2 : (Except.error "# wildcard must be at the end of the pattern" :
        Except String Token) = Except.ok t := h
      cases h2
    · simpa using hc

/-! ### Lemmas: the assignment conditions and segment substitution -/

theorem validAssignB_cons {params : Params} {seg : List Char} {rest : List (List Char)}
    (h : validAssignB params (seg :: rest) = true) :
    validAssignSeg params seg = true ∧ validAssignB params rest = true := by
  rw [validAssignB, List.all_cons, Bool.and_eq_true] at h
  exact ⟨h.1, h.2⟩

theorem validAssignSeg_plus {params : Params} {key : List Char}
    (h : validAssignSeg params ('+' :: key) = true) :
    key ≠ [] ∧ ∃ v, lookupParam params ⟨key⟩ = some (Value.scalar v) ∧ validSeg v.data = true := by
  rw [validAssignSeg] at h
  rw [if_pos rfl, Bool.and_eq_true] at h
  obtain ⟨h1, h2⟩ := h
  refine ⟨by simpa using h1, ?_⟩
  cases hl : lookupParam params ⟨key⟩ with
  | none =>
    rw [hl] at h2
    exact absurd h2 (by simp)
  | some v =>
    cases v with
    | scalar v =>
      rw [hl] at h2
      exact ⟨v, rfl, h2⟩
    | sequence xs =>
      rw [hl] at h2
      exact absurd h2 (by simp)

theorem validAssignSeg_hash {params : Params} {key : List Char}
    (h : validAssignSeg params ('#' :: key) = true) :
    key ≠ [] ∧ ∃ xs, lookupParam params ⟨key⟩ = some (Value.sequence xs) ∧
      ∀ x ∈ xs, validSeg x.data = true := by
  rw [validAssignSeg] at h
  rw [if_neg (by decide), if_pos rfl, Bool.and_eq_true] at h
  obtain ⟨h1, h2⟩ := h
  refine ⟨by simpa using h1, ?_⟩
  cases hl : lookupParam params ⟨key⟩ with
  | none =>
    rw [hl] at h2
    exact absurd h2 (by simp)
  | some v =>
    cases v with
    | scalar v =>
      rw [hl] at h2
      exact absurd h2 (by simp)
    | sequence xs =>
      rw [hl] at h2
      exact ⟨xs, rfl, fun x hx => List.all_eq_true.mp h2 x hx⟩

theorem substSegC_nil (params : Params) : substSegC params [] = [] := rfl

theorem substSegC_plus_scalar {params : Params} {key : List Char} {v : String}
    (h : lookupParam params ⟨key⟩ = some (Value.scalar v)) :
    substSegC params ('+' :: key) = v.data := by
  rw [substSegC, if_pos rfl, h]
  rfl

theorem substSegC_hash_seq {params : Params} {key : List Char} {xs : List String}
    (h : lookupParam params ⟨key⟩ = some (Value.sequence xs)) :
    substSegC params ('#' :: key) = joinSlash (xs.map String.data) := by
  rw [substSegC, if_neg (by decide), if_pos rfl, h]

theorem substSegC_other {params : Params} {seg : List Char}
    (h1 : segIsPlus seg = false) (h2 : segIsHash seg = false) :
    substSegC params seg = seg := by
  cases seg with
  | nil => rfl
  | cons c key =>
    have hc1 : c ≠ '+' := by
      rw [segIsPlus] at h1
      simpa using h1
    have hc2 : c ≠ '#' := by
      rw [segIsHash] at h2
      simpa using h2
    rw [substSegC, if_neg hc1, if_neg hc2]

theorem expectedCaps_nil (params : Params) : expectedCaps params [] = [] := rfl

theorem expectedCaps_single (params : Params) (seg : List Char) :
    expectedCaps params [seg] =
      (if segIsWildcard seg then [substSegC params seg] else []) := rfl

theorem expectedCaps_cons₂ (params : Params) (seg s2 : List Char) (rest : List (List Char)) :
    expectedCaps params (seg :: s2 :: rest) =
      (if segIsPlus seg then [substSegC params seg ++ ['/']] else []) ++
        expectedCaps params (s2 :: rest) := rfl

theorem joinSlash_cons₂ (a b : List Char) (rest : List (List Char)) :
    joinSlash (a :: b :: rest) = a ++ '/' :: joinSlash (b :: rest) := rfl

/-! ### The matcher accepts every validly parameterized topic -/

theorem tokenFrag_true_of_multi {t : Token} (h : t.type = TokenTypes.MULTI) :
    tokenFrag t true = Frag.multiLast := by
  cases t with
  | mk ty nm pc lst =>
    cases ty with
    | SINGLE => exact absurd h (by simp)
    | MULTI => rfl
    | RAW => exact absurd h (by simp)

theorem joinSlash_map_single (f : List Char → List Char) (a : List Char) :
    joinSlash ([a].map f) = f a := rfl

theorem joinSlash_map_cons₂ (f : List Char → List Char) (a b : List Char)
    (rest : List (List Char)) :
    joinSlash ((a :: b :: rest).map f) = f a ++ '/' :: joinSlash ((b :: rest).map f) := rfl

theorem exec_last_seg (params : Params) (seg : List Char) (t : Token)
    (hpt : processToken seg true = Except.ok t)
    (hv : validAssignSeg params seg = true) :
    execFrags (buildFrags [t]) (substSegC params seg) = some (expectedCaps params [seg]) := by
  cases seg with
  | nil =>
    rw [processToken_nil, Except.ok.injEq] at hpt
    subst hpt
    rfl
  | cons c key =>
    by_cases hcp : c = '+'
    · subst hcp
      rw [processToken_cons, if_pos rfl, Except.ok.injEq] at hpt
      subst hpt
      obtain ⟨hkey, v, hl, hval⟩ := validAssignSeg_plus hv
      rw [buildFrags_single, tokenFrag_processSingle_last]
      rw [substSegC_plus_scalar hl]
      rw [execFrags_singleLast_end hval]
      rw [execFrags_nil_def]
      rw [expectedCaps_single]
      have hw : segIsWildcard ('+' :: key) = true := by
        rw [segIsWildcard, segIsPlus]
        simp
      rw [hw, if_pos rfl, substSegC_plus_scalar hl]
      simp
    · by_cases hch : c = '#'
      · subst hch
        rw [processToken_cons, if_neg (by decide), if_pos rfl, processMulti_true,
          Except.ok.injEq] at hpt
        have htype : t.type = TokenTypes.MULTI := by
          rw [← hpt]
        obtain ⟨hkey, xs, hl, hxs⟩ := validAssignSeg_hash hv
        rw [buildFrags_single, tokenFrag_true_of_multi htype]
        rw [substSegC_hash_seq hl]
        have hmok : multiOk (joinSlash (xs.map String.data)) = true := by
          apply multiOk_joinSlash
          intro x hx
          obtain ⟨s, hs, rfl⟩ := List.mem_map.mp hx
          exact hxs s hs
        rw [execFrags_multiLast, hmok, if_pos rfl]
        rw [expectedCaps_single]
        have hw : segIsWildcard ('#' :: key) = true := by
          rw [segIsWildcard, segIsPlus, segIsHash]
          simp
        rw [hw, if_pos rfl, substSegC_hash_seq hl]
      · rw [processToken_cons, if_neg hcp, if_neg hch, Except.ok.injEq] at hpt
        subst hpt
        have h1 : segIsPlus (c :: key) = false := by
          rw [segIsPlus]
          simpa using hcp
        have h2 : segIsHash (c :: key) = false := by
          rw [segIsHash]
          simpa using hch
        rw [buildFrags_single, tokenFrag_processRaw_last, substSegC_other h1 h2]
        rw [execFrags_rawLast_end, execFrags_nil_def]
        rw [expectedCaps_single]
        have hw : segIsWildcard (c :: key) = false := by
          rw [segIsWildcard, h1, h2]
          rfl
        rw [hw]
        simp

theorem exec_piece_seg (params : Params) (seg : List Char) (t : Token)
    (hpt : processToken seg false = Except.ok t)
    (hv : validAssignSeg params seg = true)
    (frest : List Frag) (input : List Char) (caps : List (List Char))
    (hrest : execFrags frest input = some caps) :
    execFrags (tokenFrag t false :: frest) (substSegC params seg ++ '/' :: input) =
      some ((if segIsPlus seg then [substSegC params seg ++ ['/']] else []) ++ caps) := by
  cases seg with
  | nil =>
    rw [processToken_nil, Except.ok.injEq] at hpt
    subst hpt
    rw [tokenFrag_processRaw_piece, substSegC_nil]
    rw [execFrags_rawPiece_chunk [] frest input, hrest]
    simp [segIsPlus]
  | cons c key =>
    by_cases hcp : c = '+'
    · subst hcp
      rw [processToken_cons, if_pos rfl, Except.ok.injEq] at hpt
      subst hpt
      obtain ⟨hkey, v, hl, hval⟩ := validAssignSeg_plus hv
      rw [tokenFrag_processSingle_piece, substSegC_plus_scalar hl]
      rw [execFrags_singlePiece_chunk hval frest input, hrest]
      have hp : segIsPlus ('+' :: key) = true := by
        rw [segIsPlus]
        simp
      rw [hp, if_pos rfl]
      simp
    · by_cases hch : c = '#'
      · subst hch
        rw [processToken_cons, if_neg hcp, if_pos rfl, processMulti_false] at hpt
        have h2 : (Except.error "# wildcard must be at the end of the pattern" :
          Except String Token) = Except.ok t := hpt
        cases h2
      · rw [processToken_cons, if_neg hcp, if_neg hch, Except.ok.injEq] at hpt
        subst hpt
        have h1 : segIsPlus (c :: key) = false := by
          rw [segIsPlus]
          simpa using hcp
        have h2 : segIsHash (c :: key) = false := by
          rw [segIsHash]
          simpa using hch
        rw [tokenFrag_processRaw_piece, substSegC_other h1 h2]
        rw [execFrags_rawPiece_chunk (c :: key) frest input, hrest]
        rw [h1]
        simp

theorem exec_pair_seg (params : Params) (seg s2 : List Char) (t t2 : Token)
    (hpt : processToken seg false = Except.ok t)
    (hpt2 : processToken s2 true = Except.ok t2)
    (hhash : segIsHash s2 = true)
    (hv : validAssignSeg params seg = true)
    (hv2 : validAssignSeg params s2 = true) :
    execFrags (buildFrags [t, t2]) (substSegC params seg ++ '/' :: substSegC params s2) =
      some (expectedCaps params [seg, s2]) := by
  cases s2 with
  | nil => exact absurd hhash (by simp [segIsHash])
  | cons c2 key2 =>
    have hc2 : c2 = '#' := by
      rw [segIsHash] at hhash
      simpa using hhash
    subst hc2
    rw [processToken_cons, if_neg (by decide), if_pos rfl, processMulti_true,
      Except.ok.injEq] at hpt2
    have htype : t2.type = TokenTypes.MULTI := by
      rw [← hpt2]
    obtain ⟨hkey2, xs, hl2, hxs⟩ := validAssignSeg_hash hv2
    rw [buildFrags_cons₂, buildFrags_single, isBeforeMulti_single, htype]
    rw [tokenFrag_true_of_multi htype]
    rw [substSegC_hash_seq hl2]
    have hmok : multiOk (joinSlash (xs.map String.data)) = true := by
      apply multiOk_joinSlash
      intro x hx
      obtain ⟨s, hs, rfl⟩ := List.mem_map.mp hx
      exact hxs s hs
    have hmexec : execFrags [Frag.multiLast] (joinSlash (xs.map String.data)) =
        some [joinSlash (xs.map String.data)] := by
      rw [execFrags_multiLast, hmok, if_pos rfl]
    have hw2 : segIsWildcard ('#' :: key2) = true := by
      rw [segIsWildcard, segIsPlus, segIsHash]
      simp
    cases seg with
    | nil =>
      rw [processToken_nil, Except.ok.injEq] at hpt
      subst hpt
      rw [show (TokenTypes.MULTI == TokenTypes.MULTI) = true from rfl]
      rw [tokenFrag_processRaw_last, substSegC_nil]
      rw [execFrags_rawLast_slash [] [Frag.multiLast] (joinSlash (xs.map String.data))]
      rw [hmexec]
      rw [expectedCaps_cons₂, expectedCaps_single]
      rw [hw2, if_pos rfl, substSegC_hash_seq hl2]
      simp [segIsPlus]
    | cons c key =>
      by_cases hcp : c = '+'
      · subst hcp
        rw [processToken_cons, if_pos rfl, Except.ok.injEq] at hpt
        subst hpt
        obtain ⟨hkey, v, hl, hval⟩ := validAssignSeg_plus hv
        rw [show (TokenTypes.MULTI == TokenTypes.MULTI) = true from rfl]
        rw [tokenFrag_processSingle_last, substSegC_plus_scalar hl]
        rw [execFrags_singleLast_slash hval [Frag.multiLast] (joinSlash (xs.map String.data))]
        rw [hmexec]
        rw [expectedCaps_cons₂, expectedCaps_single]
        have hp : segIsPlus ('+' :: key) = true := by
          rw [segIsPlus]
          simp
        rw [hp, if_pos rfl, hw2, if_pos rfl]
        rw [substSegC_plus_scalar hl, substSegC_hash_seq hl2]
        simp
      · by_cases hch : c = '#'
        · subst hch
          rw [processToken_cons, if_neg hcp, if_pos rfl, processMulti_false] at hpt
          have hcontra : (Except.error "# wildcard must be at the end of the pattern" :
            Except String Token) = Except.ok t := hpt
          cases hcontra
        · rw [processToken_cons, if_neg hcp, if_neg hch, Except.ok.injEq] at hpt
          subst hpt
          have h1 : segIsPlus (c :: key) = false := by
            rw [segIsPlus]
            simpa using hcp
          have h2 : segIsHash (c :: key) = false := by
            rw [segIsHash]
            simpa using hch
          rw [show (TokenTypes.MULTI == TokenTypes.MULTI) = true from rfl]
          rw [tokenFrag_processRaw_last, substSegC_other h1 h2]
          rw [execFrags_rawLast_slash (c :: key) [Frag.multiLast]
            (joinSlash (xs.map String.data))]
          rw [hmexec]
          rw [expectedCaps_cons₂, expectedCaps_single]
          rw [h1, hw2, if_pos rfl, substSegC_hash_seq hl2]
          simp

theorem execFrags_tokenize (params : Params) :
    ∀ (segs : List (List Char)) (ts : List Token),
      tokenizeAux segs = Except.ok ts →
      validAssignB params segs = true →
      execFrags (buildFrags ts) (joinSlash (segs.map (substSegC params))) =
        some (expectedCaps params segs) := by
  intro segs
  induction segs with
  | nil =>
    intro ts h hv
    rw [tokenizeAux_nil_inv h]
    rfl
  | cons seg rest ih =>
    intro ts h hv
    obtain ⟨hvseg, hvrest⟩ := validAssignB_cons hv
    cases rest with
    | nil =>
      obtain ⟨t, hpt, rfl⟩ := tokenizeAux_single_inv h
      exact exec_last_seg params seg t hpt hvseg
    | cons s2 rest2 =>
      obtain ⟨t, ts2, hpt, hts2, rfl⟩ := tokenizeAux_cons₂_inv h
      rw [joinSlash_map_cons₂]
      cases rest2 with
      | nil =>
        obtain ⟨t2, hpt2, rfl⟩ := tokenizeAux_single_inv hts2
        by_cases hh : segIsHash s2 = true
        · exact exec_pair_seg params seg s2 t t2 hpt hpt2 hh hvseg
            (validAssignB_cons hvrest).1
        · have hh2 : segIsHash s2 = false := by
            revert hh
            cases segIsHash s2 <;> simp
          have hflag : isBeforeMulti [t2] = false := by
            rw [isBeforeMulti_single]
            exact processToken_type_not_multi hpt2 hh2
          rw [buildFrags_cons₂, hflag]
          rw [expectedCaps_cons₂]
          exact exec_piece_seg params seg t hpt hvseg (buildFrags [t2])
            (joinSlash ([s2].map (substSegC params))) (expectedCaps params [s2])
            (ih [t2] hts2 hvrest)
      | cons s3 rest3 =>
        obtain ⟨t2, ts3, hpt2, hts3, rfl⟩ := tokenizeAux_cons₂_inv hts2
        cases ts3 with
        | nil =>
          have hl := tokenizeAux_length hts3
          simp at hl
        | cons t3 ts4 =>
          have hflag : isBeforeMulti (t2 :: t3 :: ts4) = false := isBeforeMulti_cons₂ t2 t3 ts4
          rw [buildFrags_cons₂, hflag]
          rw [expectedCaps_cons₂]
          exact exec_piece_seg params seg t hpt hvseg (buildFrags (t2 :: t3 :: ts4))
            (joinSlash ((s2 :: s3 :: rest3).map (substSegC params)))
            (expectedCaps params (s2 :: s3 :: rest3))
            (ih (t2 :: t3 :: ts4) (by rw [tokenizeAux]; rw [hpt2, hts3]; rfl) hvrest)

/-! ### Lemmas: parameter objects and capture decoding -/

theorem stringMk_data (s : String) : (⟨s.data⟩ : String) = s := rfl

theorem stringData_mk (cs : List Char) : (⟨cs⟩ : String).data = cs := rfl

theorem stringMk_ne_empty {cs : List Char} (h : cs ≠ []) : (⟨cs⟩ : String) ≠ "" := by
  intro hh
  apply h
  have h2 : (⟨cs⟩ : String).data = ("" : String).data := by rw [hh]
  simpa using h2

theorem map_mk_data (xs : List String) :
    (xs.map String.data).map (fun cs => (⟨cs⟩ : String)) = xs := by
  rw [List.map_map]
  have h : ((fun cs => (⟨cs⟩ : String)) ∘ String.data) = id := funext fun s => rfl
  rw [h, List.map_id]

theorem mem_of_getLast?_eq {α : Type} {l : List α} {a : α} (h : l.getLast? = some a) :
    a ∈ l := by
  have h2 : l ≠ [] := by
    intro hh
    rw [hh] at h
    simp at h
  rw [List.getLast?_eq_getLast l h2, Option.some.injEq] at h
  rw [← h]
  exact List.getLast_mem h2

theorem validSeg_getLast_ne_slash {cs : List Char} (h : validSeg cs = true) :
    cs.getLast? ≠ some '/' := by
  intro heq
  have hmem := mem_of_getLast?_eq heq
  have := validSeg_all h '/' hmem
  simp [isSegChar] at this

theorem lookupParam_nil (k : String) : lookupParam [] k = none := rfl

theorem lookupParam_cons (k2 : String) (v2 : Value) (rest : Params) (k : String) :
    lookupParam ((k2, v2) :: rest) k = if k2 == k then some v2 else lookupParam rest k := by
  by_cases h : (k2 == k) = true
  · simp [lookupParam, List.find?, h]
  · have h2 : (k2 == k) = false := by
      revert h
      cases k2 == k <;> simp
    simp [lookupParam, List.find?, h2]

theorem lookupParam_objSet (ps : Params) (k : String) (v : Value) (k2 : String) :
    lookupParam (objSet ps k v) k2 = if k2 = k then some v else lookupParam ps k2 := by
  induction ps with
  | nil =>
    rw [objSet, lookupParam_cons, lookupParam_nil]
    by_cases h : k2 = k
    · rw [if_pos h, if_pos (by simp [h])]
    · rw [if_neg h, if_neg (by simp; intro hh; exact h hh.symm)]
  | cons pr rest ih =>
    obtain ⟨k3, v3⟩ := pr
    rw [objSet]
    by_cases h3 : k3 = k
    · subst h3
      rw [if_pos rfl, lookupParam_cons, lookupParam_cons]
      by_cases h2 : k2 = k3
      · subst h2
        simp
      · have hb : (k3 == k2) = false := by
          simp only [beq_eq_false_iff_ne, ne_eq]
          intro hh
          exact h2 hh.symm
        rw [hb]
        simp [h2]
    · rw [if_neg h3, lookupParam_cons, ih, lookupParam_cons]
      by_cases h2 : k2 = k
      · subst h2
        have hb : (k3 == k2) = false := by
          simp only [beq_eq_false_iff_ne, ne_eq]
          intro hh
          exact h3 hh
        rw [hb]
        simp
      · by_cases h4 : k3 = k2
        · subst h4
          simp [h2]
        · have hb : (k3 == k2) = false := by
            simp only [beq_eq_false_iff_ne, ne_eq]
            exact h4
          rw [hb]
          simp [h2]

theorem captureParam_scalar_plain {t : Token} (h : ¬ t.type = TokenTypes.MULTI)
    {cs : List Char} (hlast : cs.getLast? ≠ some '/') :
    captureParam t ⟨cs⟩ = Value.scalar ⟨cs⟩ := by
  rw [captureParam, if_neg h, if_neg (by rw [stringData_mk]; exact hlast)]

theorem captureParam_scalar_slash {t : Token} (h : ¬ t.type = TokenTypes.MULTI)
    (cs : List Char) :
    captureParam t ⟨cs ++ ['/']⟩ = Value.scalar ⟨cs⟩ := by
  rw [captureParam, if_neg h, if_pos (by rw [stringData_mk]; exact List.getLast?_concat cs)]
  rw [stringData_mk, List.dropLast_concat]

theorem captureParam_multi {t : Token} (h : t.type = TokenTypes.MULTI) (xs : List String)
    (hxs : ∀ x ∈ xs, validSeg x.data = true) :
    captureParam t ⟨joinSlash (xs.map String.data)⟩ = Value.sequence xs := by
  rw [captureParam, if_pos h]
  cases xs with
  | nil => rfl
  | cons x xs2 =>
    have hsplit : splitOnSlash (joinSlash ((x :: xs2).map String.data)) =
        (x :: xs2).map String.data := by
      apply splitOnSlash_joinSlash_of_valid (by simp)
      intro y hy
      obtain ⟨s, hs, rfl⟩ := List.mem_map.mp hy
      exact hxs s hs
    have hne : (x :: xs2) ≠ [] := by simp
    have hlast : ((x :: xs2).map String.data).getLast? =
        some (((x :: xs2).getLast hne).data) := by
      rw [List.getLast?_map _ (x :: xs2)]
      rw [List.getLast?_eq_getLast (x :: xs2) hne]
      rfl
    have hval := hxs ((x :: xs2).getLast hne) (List.getLast_mem hne)
    have hnonempty : (((x :: xs2).getLast hne).data).isEmpty = false := by
      have h2 := validSeg_ne_nil hval
      revert h2
      cases ((x :: xs2).getLast hne).data <;> simp
    simp only [stringData_mk, hsplit, hlast, Option.getD_some, hnonempty,
      Bool.false_eq_true, if_false, map_mk_data]

theorem removeRawTokens_nil : removeRawTokens [] = [] := rfl

theorem removeRawTokens_cons_raw {t : Token} (h : t.type = TokenTypes.RAW)
    (ts : List Token) : removeRawTokens (t :: ts) = removeRawTokens ts := by
  simp [removeRawTokens, List.filter_cons, h]

theorem removeRawTokens_cons_nonraw {t : Token} (h : ¬ t.type = TokenTypes.RAW)
    (ts : List Token) : removeRawTokens (t :: ts) = t :: removeRawTokens ts := by
  simp [removeRawTokens, List.filter_cons, h]

theorem paramStep_named {t : Token} {n : String} (hn : t.name = some n) (hne : n ≠ "")
    (ps : Params) (c : String) :
    paramStep ps (c, t) = objSet ps n (captureParam t c) := by
  have h0 : paramStep ps (c, t) =
      (match t.name with
       | none => ps
       | some name =>
         if name = "" then ps
         else objSet ps name (captureParam t c)) := rfl
  rw [h0, hn]
  simp [hne]

theorem lookup_foldl_paramStep (params : Params) :
    ∀ (pairs : List (String × Token)) (acc : Params) (k : String),
      (∀ pr ∈ pairs, ∃ n val, pr.2.name = some n ∧ n ≠ "" ∧
        lookupParam params n = some val ∧ captureParam pr.2 pr.1 = val) →
      lookupParam (pairs.foldl paramStep acc) k =
        (if pairs.any (fun pr => pr.2.name == some k) then lookupParam params k
         else lookupParam acc k) := by
  intro pairs
  induction pairs with
  | nil =>
    intro acc k h
    simp
  | cons pr rest ih =>
    intro acc k h
    obtain ⟨c, t⟩ := pr
    obtain ⟨n, val, hn, hne, hlk, hcap⟩ := h (c, t) (List.mem_cons_self _ _)
    rw [List.foldl_cons, paramStep_named hn hne, hcap]
    rw [ih _ k (fun q hq => h q (List.mem_cons_of_mem _ hq))]
    rw [List.any_cons]
    by_cases hany : rest.any (fun q => q.2.name == some k) = true
    · rw [hany]
      simp
    · have hany2 : rest.any (fun q => q.2.name == some k) = false := by
        revert hany
        cases rest.any (fun q => q.2.name == some k) <;> simp
      rw [hany2, lookupParam_objSet]
      rw [hn]
      by_cases hk : k = n
      · subst hk
        rw [if_pos rfl, hlk]
        simp
      · have hb : ((some n == some k) || false) = false := by
          simp only [Bool.or_false, beq_eq_false_iff_ne, ne_eq, Option.some.injEq]
          intro hh
          exact hk hh.symm
        rw [if_neg hk, hb]

/-! ### Extraction reproduces the assignment -/

theorem processSingle_type (seg : List Char) :
    (processSingle seg).type = TokenTypes.SINGLE := rfl

theorem processSingle_name (c : Char) (key : List Char) :
    (processSingle (c :: key)).name = some ⟨key⟩ := rfl

theorem processRaw_type (seg : List Char) : (processRaw seg).type = TokenTypes.RAW := rfl

theorem single_not_raw (seg : List Char) :
    ¬ (processSingle seg).type = TokenTypes.RAW := by
  rw [processSingle_type]
  decide

theorem single_not_multi (seg : List Char) :
    ¬ (processSingle seg).type = TokenTypes.MULTI := by
  rw [processSingle_type]
  decide

theorem multi_not_raw {t : Token} (h : t.type = TokenTypes.MULTI) :
    ¬ t.type = TokenTypes.RAW := by
  rw [h]
  decide

theorem contains_true {l : List (List Char)} {x : List Char} (h : l.contains x = true) :
    x ∈ l := by
  simpa using h

theorem lookupParam_some_mem {params : Params} {k : String} {val : Value}
    (h : lookupParam params k = some val) : ∃ pr ∈ params, pr.1 = k := by
  rw [lookupParam] at h
  cases hf : params.find? (fun pr => pr.1 == k) with
  | none =>
    rw [hf] at h
    simp at h
  | some pr =>
    have hmem := List.mem_of_find?_eq_some hf
    have hpred := List.find?_some hf
    exact ⟨pr, hmem, by simpa using hpred⟩

theorem pairs_spec (params : Params) :
    ∀ (segs : List (List Char)) (ts : List Token),
      tokenizeAux segs = Except.ok ts →
      validAssignB params segs = true →
      ∀ pr ∈ (((expectedCaps params segs).map (fun cs => (⟨cs⟩ : String))).zip
        (removeRawTokens ts)),
        ∃ n val, pr.2.name = some n ∧ n ≠ "" ∧ lookupParam params n = some val ∧
          captureParam pr.2 pr.1 = val := by
  intro segs
  induction segs with
  | nil =>
    intro ts h hv pr hpr
    rw [tokenizeAux_nil_inv h] at hpr
    simp [expectedCaps_nil] at hpr
  | cons seg rest ih =>
    intro ts h hv pr hpr
    obtain ⟨hvseg, hvrest⟩ := validAssignB_cons hv
    cases rest with
    | nil =>
      obtain ⟨t, hpt, rfl⟩ := tokenizeAux_single_inv h
      cases seg with
      | nil =>
        rw [processToken_nil, Except.ok.injEq] at hpt
        subst hpt
        rw [removeRawTokens_cons_raw (processRaw_type []), removeRawTokens_nil] at hpr
        simp at hpr
      | cons c key =>
        by_cases hcp : c = '+'
        · subst hcp
          rw [processToken_cons, if_pos rfl, Except.ok.injEq] at hpt
          subst hpt
          obtain ⟨hkey, v, hl, hval⟩ := validAssignSeg_plus hvseg
          rw [expectedCaps_single] at hpr
          have hw : segIsWildcard ('+' :: key) = true := by
            rw [segIsWildcard, segIsPlus]
            simp
          rw [hw, if_pos rfl, substSegC_plus_scalar hl] at hpr
          rw [removeRawTokens_cons_nonraw (single_not_raw _), removeRawTokens_nil] at hpr
          simp only [List.map_cons, List.map_nil, List.zip_cons_cons, List.zip_nil_left,
            List.mem_singleton] at hpr
          subst hpr
          refine ⟨⟨key⟩, Value.scalar v, processSingle_name '+' key,
            stringMk_ne_empty hkey, hl, ?_⟩
          rw [captureParam_scalar_plain (single_not_multi _) (validSeg_getLast_ne_slash hval)]
        · by_cases hch : c = '#'
          · subst hch
            rw [processToken_cons, if_neg (by decide), if_pos rfl, processMulti_true,
              Except.ok.injEq] at hpt
            have htype : t.type = TokenTypes.MULTI := by rw [← hpt]
            have hname : t.name = some ⟨key⟩ := by
              rw [← hpt]
              exact rfl
            obtain ⟨hkey, xs, hl, hxs⟩ := validAssignSeg_hash hvseg
            rw [expectedCaps_single] at hpr
            have hw : segIsWildcard ('#' :: key) = true := by
              rw [segIsWildcard, segIsPlus, segIsHash]
              simp
            rw [hw, if_pos rfl, substSegC_hash_seq hl] at hpr
            rw [removeRawTokens_cons_nonraw (multi_not_raw htype), removeRawTokens_nil] at hpr
            simp only [List.map_cons, List.map_nil, List.zip_cons_cons, List.zip_nil_left,
              List.mem_singleton] at hpr
            subst hpr
            exact ⟨⟨key⟩, Value.sequence xs, hname, stringMk_ne_empty hkey, hl,
              captureParam_multi htype xs hxs⟩
          · rw [processToken_cons, if_neg hcp, if_neg hch, Except.ok.injEq] at hpt
            subst hpt
            have h1 : segIsPlus (c :: key) = false := by
              rw [segIsPlus]
              simpa using hcp
            have h2 : segIsHash (c :: key) = false := by
              rw [segIsHash]
              simpa using hch
            rw [expectedCaps_single] at hpr
            have hw : segIsWildcard (c :: key) = false := by
              rw [segIsWildcard, h1, h2]
              rfl
            rw [hw] at hpr
            rw [removeRawTokens_cons_raw (processRaw_type _), removeRawTokens_nil] at hpr
            simp at hpr
    | cons s2 rest2 =>
      obtain ⟨t, ts2, hpt, hts2, rfl⟩ := tokenizeAux_cons₂_inv h
      rw [expectedCaps_cons₂] at hpr
      cases seg with
      | nil =>
        rw [processToken_nil, Except.ok.injEq] at hpt
        subst hpt
        rw [removeRawTokens_cons_raw (processRaw_type [])] at hpr
        have hp0 : segIsPlus ([] : List Char) = false := rfl
        rw [hp0] at hpr
        simp only [Bool.false_eq_true, if_false, List.nil_append] at hpr
        exact ih ts2 hts2 hvrest pr hpr
      | cons c key =>
        by_cases hcp : c = '+'
        · subst hcp
          rw [processToken_cons, if_pos rfl, Except.ok.injEq] at hpt
          subst hpt
          obtain ⟨hkey, v, hl, hval⟩ := validAssignSeg_plus hvseg
          have hp : segIsPlus ('+' :: key) = true := by
            rw [segIsPlus]
            simp
          rw [hp, if_pos rfl, substSegC_plus_scalar hl] at hpr
          rw [removeRawTokens_cons_nonraw (single_not_raw _)] at hpr
          simp only [List.singleton_append, List.map_cons, List.zip_cons_cons,
            List.mem_cons] at hpr
          rcases hpr with hpr | hpr
          · subst hpr
            refine ⟨⟨key⟩, Value.scalar v, processSingle_name '+' key,
              stringMk_ne_empty hkey, hl, ?_⟩
            rw [captureParam_scalar_slash (single_not_multi _) v.data]
          · exact ih ts2 hts2 hvrest pr hpr
        · by_cases hch : c = '#'
          · subst hch
            rw [processToken_cons, if_neg hcp, if_pos rfl, processMulti_false] at hpt
            have hcontra : (Except.error "# wildcard must be at the end of the pattern" :
              Except String Token) = Except.ok t := hpt
            cases hcontra
          · rw [processToken_cons, if_neg hcp, if_neg hch, Except.ok.injEq] at hpt
            subst hpt
            have h1 : segIsPlus (c :: key) = false := by
              rw [segIsPlus]
              simpa using hcp
            rw [h1] at hpr
            rw [removeRawTokens_cons_raw (processRaw_type _)] at hpr
            simp only [Bool.false_eq_true, if_false, List.nil_append] at hpr
            exact ih ts2 hts2 hvrest pr hpr

theorem pairs_names (params : Params) :
    ∀ (segs : List (List Char)) (ts : List Token),
      tokenizeAux segs = Except.ok ts →
      ∀ key : List Char, (('+' :: key) ∈ segs ∨ ('#' :: key) ∈ segs) →
        (((expectedCaps params segs).map (fun cs => (⟨cs⟩ : String))).zip
          (removeRawTokens ts)).any (fun pr => pr.2.name == some (⟨key⟩ : String)) = true := by
  intro segs
  induction segs with
  | nil =>
    intro ts h key hkey
    rcases hkey with hk | hk <;> simp at hk
  | cons seg rest ih =>
    intro ts h key hkey
    cases rest with
    | nil =>
      obtain ⟨t, hpt, rfl⟩ := tokenizeAux_single_inv h
      have hseg : seg = '+' :: key ∨ seg = '#' :: key := by
        rcases hkey with hk | hk
        · exact Or.inl (List.mem_singleton.mp hk).symm
        · exact Or.inr (List.mem_singleton.mp hk).symm
      rcases hseg with rfl | rfl
      · rw [processToken_cons, if_pos rfl, Except.ok.injEq] at hpt
        subst hpt
        rw [removeRawTokens_cons_nonraw (single_not_raw _), removeRawTokens_nil]
        rw [expectedCaps_single]
        have hw : segIsWildcard ('+' :: key) = true := by
          rw [segIsWildcard, segIsPlus]
          simp
        rw [hw, if_pos rfl]
        simp [processSingle_name]
      · rw [processToken_cons, if_neg (by decide), if_pos rfl, processMulti_true,
          Except.ok.injEq] at hpt
        have htype : t.type = TokenTypes.MULTI := by rw [← hpt]
        have hname : t.name = some ⟨key⟩ := by
          rw [← hpt]
          exact rfl
        rw [removeRawTokens_cons_nonraw (multi_not_raw htype), removeRawTokens_nil]
        rw [expectedCaps_single]
        have hw : segIsWildcard ('#' :: key) = true := by
          rw [segIsWildcard, segIsPlus, segIsHash]
          simp
        rw [hw, if_pos rfl]
        simp [hname]
    | cons s2 rest2 =>
      obtain ⟨t, ts2, hpt, hts2, rfl⟩ := tokenizeAux_cons₂_inv h
      rw [expectedCaps_cons₂]
      have hnothash : segIsHash seg = false := processToken_false_not_hash hpt
      by_cases hhead : seg = '+' :: key
      · subst hhead
        rw [processToken_cons, if_pos rfl, Except.ok.injEq] at hpt
        subst hpt
        have hp : segIsPlus ('+' :: key) = true := by
          rw [segIsPlus]
          simp
        rw [hp, if_pos rfl]
        rw [removeRawTokens_cons_nonraw (single_not_raw _)]
        simp only [List.singleton_append, List.map_cons, List.zip_cons_cons, List.any_cons]
        have hbeq : ((processSingle ('+' :: key)).name == some (⟨key⟩ : String)) = true := by
          rw [processSingle_name]
          simp
        rw [hbeq]
        simp
      · have htail : ('+' :: key) ∈ (s2 :: rest2) ∨ ('#' :: key) ∈ (s2 :: rest2) := by
          rcases hkey with hk | hk
          · rcases List.mem_cons.mp hk with hk2 | hk2
            · exact absurd hk2.symm hhead
            · exact Or.inl hk2
          · rcases List.mem_cons.mp hk with hk2 | hk2
            · exfalso
              rw [← hk2] at hnothash
              simp [segIsHash] at hnothash
            · exact Or.inr hk2
        have ihres := ih ts2 hts2 key htail
        by_cases hp : segIsPlus seg = true
        · cases seg with
          | nil => simp [segIsPlus] at hp
          | cons c key2 =>
            have hc : c = '+' := by
              rw [segIsPlus] at hp
              simpa using hp
            subst hc
            rw [processToken_cons, if_pos rfl, Except.ok.injEq] at hpt
            subst hpt
            rw [hp, if_pos rfl]
            rw [removeRawTokens_cons_nonraw (single_not_raw _)]
            simp only [List.singleton_append, List.map_cons, List.zip_cons_cons, List.any_cons]
            rw [ihres]
            simp
        · have hp2 : segIsPlus seg = false := by
            revert hp
            cases segIsPlus seg <;> simp
          rw [hp2]
          simp only [Bool.false_eq_true, if_false, List.nil_append]
          cases seg with
          | nil =>
            rw [processToken_nil, Except.ok.injEq] at hpt
            subst hpt
            rw [removeRawTokens_cons_raw (processRaw_type [])]
            exact ihres
          | cons c key2 =>
            have hc1 : c ≠ '+' := by
              rw [segIsPlus] at hp2
              simpa using hp2
            have hc2 : c ≠ '#' := by
              rw [segIsHash] at hnothash
              simpa using hnothash
            rw [processToken_cons, if_neg hc1, if_neg hc2, Except.ok.injEq] at hpt
            subst hpt
            rw [removeRawTokens_cons_raw (processRaw_type _)]
            exact ihres

theorem extract_tokenize (params : Params) (segs : List (List Char)) (ts : List Token)
    (T : String) (k : String)
    (htok : tokenizeAux segs = Except.ok ts)
    (hval : validAssignB params segs = true)
    (hcov : coversOnlyB params segs = true) :
    lookupParam (buildParameterFunction ts
      (some (T :: (expectedCaps params segs).map (fun cs => (⟨cs⟩ : String))))) k =
      lookupParam params k := by
  rw [buildParameterFunction]
  have hdrop : (T :: (expectedCaps params segs).map (fun cs => (⟨cs⟩ : String))).drop 1 =
      (expectedCaps params segs).map (fun cs => (⟨cs⟩ : String)) := rfl
  rw [hdrop]
  rw [lookup_foldl_paramStep params _ [] k (pairs_spec params segs ts htok hval)]
  by_cases hany : (((expectedCaps params segs).map (fun cs => (⟨cs⟩ : String))).zip
      (removeRawTokens ts)).any (fun pr => pr.2.name == some k) = true
  · rw [hany, if_pos rfl]
  · have hany2 : (((expectedCaps params segs).map (fun cs => (⟨cs⟩ : String))).zip
        (removeRawTokens ts)).any (fun pr => pr.2.name == some k) = false := by
      revert hany
      cases (((expectedCaps params segs).map (fun cs => (⟨cs⟩ : String))).zip
        (removeRawTokens ts)).any (fun pr => pr.2.name == some k) <;> simp
    rw [hany2]
    simp only [Bool.false_eq_true, if_false, lookupParam_nil]
    cases hlk : lookupParam params k with
    | none => rfl
    | some val =>
      exfalso
      obtain ⟨pr, hmem, hk⟩ := lookupParam_some_mem hlk
      have hcovpr := List.all_eq_true.mp hcov pr hmem
      rw [hk] at hcovpr
      have hdisj : ('+' :: k.data) ∈ segs ∨ ('#' :: k.data) ∈ segs := by
        rw [Bool.or_eq_true] at hcovpr
        rcases hcovpr with hc | hc
        · exact Or.inl (contains_true hc)
        · exact Or.inr (contains_true hc)
      have hnames := pairs_names params segs ts htok k.data hdisj
      rw [stringMk_data] at hnames
      rw [hnames] at hany2
      cases hany2

/-! ### Compilation as a whole -/

theorem compile_eq_tokenize (p : String) :
    Pattern.compile p = (tokenize p).map (fun tokens =>
      { pattern := p
        topic := buildTopic tokens
        regex := buildRegularExpression tokens
        tokens := tokens
        paramCount := buildParameterCount tokens }) := by
  cases h : tokenize p with
  | error e =>
    rw [Pattern.compile, h]
    rfl
  | ok ts =>
    rw [Pattern.compile, h]
    rfl

theorem compile_ok_inv {p : String} {pat : Pattern} (h : Pattern.compile p = Except.ok pat) :
    tokenize p = Except.ok pat.tokens ∧ pat.pattern = p ∧
      pat.topic = buildTopic pat.tokens ∧ pat.regex = buildRegularExpression pat.tokens ∧
      pat.paramCount = buildParameterCount pat.tokens := by
  rw [compile_eq_tokenize] at h
  cases htk : tokenize p with
  | error e =>
    rw [htk] at h
    simp only [Except.map] at h
    cases h
  | ok ts =>
    rw [htk] at h
    simp only [Except.map] at h
    rw [Except.ok.injEq] at h
    subst h
    exact ⟨rfl, rfl, rfl, rfl, rfl⟩

theorem compile_error_iff (p : String) (e : String) :
    Pattern.compile p = Except.error e ↔ tokenize p = Except.error e := by
  rw [compile_eq_tokenize]
  cases htk : tokenize p with
  | error e2 =>
    simp only [Except.map]
    constructor
    · intro hh
      cases hh
      rfl
    · intro hh
      cases hh
      rfl
  | ok ts =>
    simp only [Except.map]
    constructor
    · intro hh
      cases hh
    · intro hh
      cases hh

theorem processToken_true_ok (seg : List Char) :
    ∃ t, processToken seg true = Except.ok t := by
  cases seg with
  | nil => exact ⟨processRaw [], rfl⟩
  | cons c key =>
    by_cases hcp : c = '+'
    · subst hcp
      exact ⟨processSingle ('+' :: key), by rw [processToken_cons, if_pos rfl]⟩
    · by_cases hch : c = '#'
      · subst hch
        exact ⟨{ type := TokenTypes.MULTI
                 name := some ⟨('#' :: key).drop 1⟩
                 piece := "((?:[^/#+]+/)*)"
                 last := "((?:[^/#+]+/?)*)" },
          by rw [processToken_cons, if_neg (by decide), if_pos rfl, processMulti_true]⟩
      · exact ⟨processRaw (c :: key), by rw [processToken_cons, if_neg hcp, if_neg hch]⟩

theorem processToken_false_ok_of_not_hash {seg : List Char} (h : segIsHash seg = false) :
    ∃ t, processToken seg false = Except.ok t := by
  cases seg with
  | nil => exact ⟨processRaw [], rfl⟩
  | cons c key =>
    have hc : c ≠ '#' := by
      rw [segIsHash] at h
      simpa using h
    by_cases hcp : c = '+'
    · subst hcp
      exact ⟨processSingle ('+' :: key), by rw [processToken_cons, if_pos rfl]⟩
    · exact ⟨processRaw (c :: key), by rw [processToken_cons, if_neg hcp, if_neg hc]⟩

theorem tokenizeAux_ok_iff (segs : List (List Char)) :
    (∃ ts, tokenizeAux segs = Except.ok ts) ↔
      (∀ s ∈ segs.dropLast, segIsHash s = false) := by
  induction segs with
  | nil => simp [tokenizeAux]
  | cons seg rest ih =>
    cases rest with
    | nil =>
      constructor
      · intro _ s hs
        simp at hs
      · intro _
        obtain ⟨t, ht⟩ := processToken_true_ok seg
        refine ⟨[t], ?_⟩
        rw [tokenizeAux, ht]
        rfl
    | cons s2 rest2 =>
      constructor
      · intro ⟨ts, hts⟩ s hs
        obtain ⟨t, ts2, hpt, hts2, rfl⟩ := tokenizeAux_cons₂_inv hts
        rw [List.dropLast_cons_of_ne_nil (by simp)] at hs
        rcases List.mem_cons.mp hs with rfl | hs2
        · exact processToken_false_not_hash hpt
        · exact ih.mp ⟨ts2, hts2⟩ s hs2
      · intro hall
        have hseg : segIsHash seg = false := by
          apply hall
          rw [List.dropLast_cons_of_ne_nil (by simp)]
          exact List.mem_cons_self _ _
        obtain ⟨t, hpt⟩ := processToken_false_ok_of_not_hash hseg
        have htail : ∀ s ∈ (s2 :: rest2).dropLast, segIsHash s = false := by
          intro s hs
          apply hall
          rw [List.dropLast_cons_of_ne_nil (by simp)]
          exact List.mem_cons_of_mem _ hs
        obtain ⟨ts2, hts2⟩ := ih.mpr htail
        refine ⟨t :: ts2, ?_⟩
        rw [tokenizeAux, hpt, hts2]
        rfl

theorem tokenizeAux_error_msg (segs : List (List Char)) :
    ∀ {e : String}, tokenizeAux segs = Except.error e →
      e = "# wildcard must be at the end of the pattern" := by
  induction segs with
  | nil =>
    intro e h
    have h2 : (Except.ok [] : Except String (List Token)) = Except.error e := h
    cases h2
  | cons seg rest ih =>
    intro e h
    cases rest with
    | nil =>
      obtain ⟨t, ht⟩ := processToken_true_ok seg
      rw [tokenizeAux, ht] at h
      have h2 : (Except.ok [t] : Except String (List Token)) = Except.error e := h
      cases h2
    | cons s2 rest2 =>
      rw [tokenizeAux] at h
      cases hpt : processToken seg false with
      | error e2 =>
        rw [hpt] at h
        have h2 : (Except.error e2 : Except String (List Token)) = Except.error e := h
        cases h2
        cases seg with
        | nil =>
          rw [processToken_nil] at hpt
          have h3 : (Except.ok (processRaw []) : Except String Token) = Except.error e := hpt
          cases h3
        | cons c key =>
          rw [processToken_cons] at hpt
          by_cases hcp : c = '+'
          · rw [if_pos hcp] at hpt
            have h3 : (Except.ok (processSingle (c :: key)) : Except String Token) =
              Except.error e := hpt
            cases h3
          · by_cases hch : c = '#'
            · rw [if_neg hcp, if_pos hch, processMulti_false] at hpt
              have h3 : (Except.error "# wildcard must be at the end of the pattern" :
                Except String Token) = Except.error e := hpt
              cases h3
              rfl
            · rw [if_neg hcp, if_neg hch] at hpt
              have h3 : (Except.ok (processRaw (c :: key)) : Except String Token) =
                Except.error e := hpt
              cases h3
      | ok t =>
        rw [hpt] at h
        cases hts : tokenizeAux (s2 :: rest2) with
        | error e2 =>
          rw [hts] at h
          have h2 : (Except.error e2 : Except String (List Token)) = Except.error e := h
          cases h2
          exact ih hts
        | ok ts2 =>
          rw [hts] at h
          have h2 : (Except.ok (t :: ts2) : Except String (List Token)) = Except.error e := h
          cases h2

/-! ### The derived subscribable topic, segment by segment -/

theorem buildTopic_tokenize :
    ∀ (segs : List (List Char)) (ts : List Token), tokenizeAux segs = Except.ok ts →
      ts.map (fun t =>
        match t.type with
        | TokenTypes.RAW => t.piece.data.dropLast
        | TokenTypes.SINGLE => ['+']
        | TokenTypes.MULTI => ['#']) = segs.map topicSegRender := by
  intro segs
  induction segs with
  | nil =>
    intro ts h
    rw [tokenizeAux_nil_inv h]
    rfl
  | cons seg rest ih =>
    have hone : ∀ t : Token, ∀ b : Bool, processToken seg b = Except.ok t →
        (match t.type with
         | TokenTypes.RAW => t.piece.data.dropLast
         | TokenTypes.SINGLE => ['+']
         | TokenTypes.MULTI => ['#']) = topicSegRender seg := by
      intro t b hpt
      cases seg with
      | nil =>
        rw [processToken_nil, Except.ok.injEq] at hpt
        subst hpt
        show (escapeChars [] ++ ['/']).dropLast = topicSegRender []
        rw [List.dropLast_concat]
        rfl
      | cons c key =>
        by_cases hcp : c = '+'
        · subst hcp
          rw [processToken_cons, if_pos rfl, Except.ok.injEq] at hpt
          subst hpt
          rw [topicSegRender]
          rw [show segIsPlus ('+' :: key) = true from by rw [segIsPlus]; simp, if_pos rfl]
          rfl
        · by_cases hch : c = '#'
          · subst hch
            rw [processToken_cons, if_neg hcp] at hpt
            rw [if_pos rfl] at hpt
            cases b with
            | false =>
              rw [processMulti_false] at hpt
              have h3 : (Except.error "# wildcard must be at the end of the pattern" :
                Except String Token) = Except.ok t := hpt
              cases h3
            | true =>
              rw [processMulti_true, Except.ok.injEq] at hpt
              have htype : t.type = TokenTypes.MULTI := by rw [← hpt]
              rw [htype]
              rw [topicSegRender]
              rw [show segIsPlus ('#' :: key) = false from by rw [segIsPlus]; simp]
              rw [show segIsHash ('#' :: key) = true from by rw [segIsHash]; simp]
              simp
          · rw [processToken_cons, if_neg hcp, if_neg hch, Except.ok.injEq] at hpt
            subst hpt
            show (escapeChars (c :: key) ++ ['/']).dropLast = topicSegRender (c :: key)
            rw [List.dropLast_concat]
            rw [topicSegRender]
            rw [show segIsPlus (c :: key) = false from by rw [segIsPlus]; simpa using hcp]
            rw [show segIsHash (c :: key) = false from by rw [segIsHash]; simpa using hch]
            simp
    intro ts h
    cases rest with
    | nil =>
      obtain ⟨t, hpt, rfl⟩ := tokenizeAux_single_inv h
      rw [List.map_cons, List.map_nil, List.map_cons, List.map_nil]
      rw [hone t true hpt]
    | cons s2 rest2 =>
      obtain ⟨t, ts2, hpt, hts2, rfl⟩ := tokenizeAux_cons₂_inv h
      rw [List.map_cons, List.map_cons]
      rw [hone t false hpt, ih ts2 hts2]

/-! ### The subscribable topic never matches its own pattern -/

theorem topicSegRender_plus {seg : List Char} (h : segIsPlus seg = true) :
    topicSegRender seg = ['+'] := by
  simp [topicSegRender, h]

theorem topicSegRender_hash {seg : List Char} (h1 : segIsPlus seg = false)
    (h2 : segIsHash seg = true) : topicSegRender seg = ['#'] := by
  simp [topicSegRender, h1, h2]

theorem topicSegRender_raw {seg : List Char} (h1 : segIsPlus seg = false)
    (h2 : segIsHash seg = false) : topicSegRender seg = escapeChars seg := by
  simp [topicSegRender, h1, h2]

theorem segIsPlus_of_hash {s : List Char} (h : segIsHash s = true) : segIsPlus s = false := by
  cases s with
  | nil => rfl
  | cons c t =>
    rw [segIsHash] at h
    rw [segIsPlus]
    have hc : c = '#' := by simpa using h
    subst hc
    decide

theorem exec_topic_raw_step (seg : List Char) (hnos : '/' ∉ seg) (fs : List Frag)
    (X : List Char) (hX : execFrags fs X = none) :
    execFrags (Frag.rawPiece (escapeChars seg) :: fs) (escapeChars seg ++ '/' :: X) = none := by
  by_cases hesc : escapeChars seg = seg
  · have hch := execFrags_rawPiece_chunk seg fs X
    rw [hesc] at hch
    rw [hesc, hch, hX]
  · exact execFrags_rawPiece_esc_none seg fs X hesc hnos

theorem exec_topic_none :
    ∀ (segs : List (List Char)) (ts : List Token),
      (∀ s ∈ segs, '/' ∉ s) →
      tokenizeAux segs = Except.ok ts →
      (∃ s ∈ segs, segIsWildcard s = true) →
      execFrags (buildFrags ts) (joinSlash (segs.map topicSegRender)) = none := by
  intro segs
  induction segs with
  | nil =>
    intro ts _ _ hwild
    obtain ⟨s, hs, _⟩ := hwild
    simp at hs
  | cons seg rest ih =>
    intro ts hns h hwild
    cases rest with
    | nil =>
      obtain ⟨t, hpt, rfl⟩ := tokenizeAux_single_inv h
      obtain ⟨s, hs, hsw⟩ := hwild
      have hseg : segIsWildcard seg = true := by
        rw [List.mem_singleton.mp hs] at hsw
        exact hsw
      cases seg with
      | nil => simp [segIsWildcard, segIsPlus, segIsHash] at hseg
      | cons c key =>
        by_cases hcp : c = '+'
        · subst hcp
          rw [processToken_cons, if_pos rfl, Except.ok.injEq] at hpt
          subst hpt
          rw [buildFrags_single, tokenFrag_processSingle_last]
          rw [joinSlash_map_single, topicSegRender_plus (by rw [segIsPlus]; simp)]
          exact execFrags_singleLast_nonseg '+' [] [] (by decide)
        · by_cases hch : c = '#'
          · subst hch
            rw [processToken_cons, if_neg (by decide), if_pos rfl, processMulti_true,
              Except.ok.injEq] at hpt
            have htype : t.type = TokenTypes.MULTI := by rw [← hpt]
            rw [buildFrags_single, tokenFrag_true_of_multi htype]
            rw [joinSlash_map_single]
            rw [topicSegRender_hash (by rw [segIsPlus]; simp) (by rw [segIsHash]; simp)]
            rw [execFrags_multiLast, multiOk_false_of_hash (List.mem_singleton.mpr rfl)]
            simp
          · exfalso
            rw [segIsWildcard, segIsPlus, segIsHash] at hseg
            revert hseg
            simp [hcp, hch]
    | cons s2 rest2 =>
      obtain ⟨t, ts2, hpt, hts2, rfl⟩ := tokenizeAux_cons₂_inv h
      rw [joinSlash_map_cons₂]
      have hnoshead : '/' ∉ seg := hns seg (List.mem_cons_self _ _)
      have hnstail : ∀ s ∈ (s2 :: rest2), '/' ∉ s :=
        fun s hs => hns s (List.mem_cons_of_mem _ hs)
      have hnothash : segIsHash seg = false := processToken_false_not_hash hpt
      cases rest2 with
      | nil =>
        obtain ⟨t2, hpt2, rfl⟩ := tokenizeAux_single_inv hts2
        by_cases hh : segIsHash s2 = true
        · have hflag : isBeforeMulti [t2] = true := by
            rw [isBeforeMulti_single]
            cases s2 with
            | nil => simp [segIsHash] at hh
            | cons c2 key2 =>
              have hc2 : c2 = '#' := by
                rw [segIsHash] at hh
                simpa using hh
              subst hc2
              rw [processToken_cons, if_neg (by decide), if_pos rfl, processMulti_true,
                Except.ok.injEq] at hpt2
              rw [← hpt2]
              exact rfl
          have htype2 : t2.type = TokenTypes.MULTI := by
            rw [isBeforeMulti_single] at hflag
            simpa using hflag
          rw [buildFrags_cons₂, hflag, buildFrags_single, tokenFrag_true_of_multi htype2]
          rw [joinSlash_map_single, topicSegRender_hash (segIsPlus_of_hash hh) hh]
          cases seg with
          | nil =>
            rw [processToken_nil, Except.ok.injEq] at hpt
            subst hpt
            rw [tokenFrag_processRaw_last, topicSegRender_raw (show segIsPlus [] = false from rfl) (show segIsHash [] = false from rfl)]
            exact execFrags_rawLast_multiLast_hash [] ['#'] hnoshead
              (List.mem_singleton.mpr rfl)
          | cons c key =>
            by_cases hcp : c = '+'
            · subst hcp
              rw [processToken_cons, if_pos rfl, Except.ok.injEq] at hpt
              subst hpt
              rw [tokenFrag_processSingle_last, topicSegRender_plus (by rw [segIsPlus]; simp)]
              exact execFrags_singleLast_nonseg '+' [Frag.multiLast] ('/' :: ['#']) (by decide)
            · have hch : c ≠ '#' := by
                rw [segIsHash] at hnothash
                simpa using hnothash
              rw [processToken_cons, if_neg hcp, if_neg hch, Except.ok.injEq] at hpt
              subst hpt
              rw [tokenFrag_processRaw_last]
              rw [topicSegRender_raw (by rw [segIsPlus]; simpa using hcp)
                (by rw [segIsHash]; simpa using hch)]
              exact execFrags_rawLast_multiLast_hash (c :: key) ['#'] hnoshead
                (List.mem_singleton.mpr rfl)
        · have hh2 : segIsHash s2 = false := by
            revert hh
            cases segIsHash s2 <;> simp
          have hflag : isBeforeMulti [t2] = false := by
            rw [isBeforeMulti_single]
            exact processToken_type_not_multi hpt2 hh2
          rw [buildFrags_cons₂, hflag]
          cases seg with
          | nil =>
            rw [processToken_nil, Except.ok.injEq] at hpt
            subst hpt
            rw [tokenFrag_processRaw_piece, topicSegRender_raw (show segIsPlus [] = false from rfl) (show segIsHash [] = false from rfl)]
            apply exec_topic_raw_step [] hnoshead
            apply ih [t2] hnstail hts2
            obtain ⟨s, hs, hsw⟩ := hwild
            rcases List.mem_cons.mp hs with rfl | hs2
            · simp [segIsWildcard, segIsPlus, segIsHash] at hsw
            · exact ⟨s, hs2, hsw⟩
          | cons c key =>
            by_cases hcp : c = '+'
            · subst hcp
              rw [processToken_cons, if_pos rfl, Except.ok.injEq] at hpt
              subst hpt
              rw [tokenFrag_processSingle_piece, topicSegRender_plus (by rw [segIsPlus]; simp)]
              exact execFrags_singlePiece_nonseg '+' _ _ (by decide)
            · have hch : c ≠ '#' := by
                rw [segIsHash] at hnothash
                simpa using hnothash
              rw [processToken_cons, if_neg hcp, if_neg hch, Except.ok.injEq] at hpt
              subst hpt
              rw [tokenFrag_processRaw_piece]
              rw [topicSegRender_raw (by rw [segIsPlus]; simpa using hcp)
                (by rw [segIsHash]; simpa using hch)]
              apply exec_topic_raw_step (c :: key) hnoshead
              apply ih [t2] hnstail hts2
              obtain ⟨s, hs, hsw⟩ := hwild
              rcases List.mem_cons.mp hs with rfl | hs2
              · exfalso
                rw [segIsWildcard, segIsPlus, segIsHash] at hsw
                revert hsw
                simp [hcp, hch]
              · exact ⟨s, hs2, hsw⟩
      | cons s3 rest3 =>
        obtain ⟨t2, ts3, hpt2, hts3, rfl⟩ := tokenizeAux_cons₂_inv hts2
        cases ts3 with
        | nil =>
          have hlen := tokenizeAux_length hts3
          simp at hlen
        | cons t3 ts4 =>
          have hflag : isBeforeMulti (t2 :: t3 :: ts4) = false := isBeforeMulti_cons₂ t2 t3 ts4
          rw [buildFrags_cons₂, hflag]
          have htail : tokenizeAux (s2 :: s3 :: rest3) = Except.ok (t2 :: t3 :: ts4) := by
            rw [tokenizeAux, hpt2, hts3]
            rfl
          cases seg with
          | nil =>
            rw [processToken_nil, Except.ok.injEq] at hpt
            subst hpt
            rw [tokenFrag_processRaw_piece, topicSegRender_raw (show segIsPlus [] = false from rfl) (show segIsHash [] = false from rfl)]
            apply exec_topic_raw_step [] hnoshead
            apply ih (t2 :: t3 :: ts4) hnstail htail
            obtain ⟨s, hs, hsw⟩ := hwild
            rcases List.mem_cons.mp hs with rfl | hs2
            · simp [segIsWildcard, segIsPlus, segIsHash] at hsw
            · exact ⟨s, hs2, hsw⟩
          | cons c key =>
            by_cases hcp : c = '+'
            · subst hcp
              rw [processToken_cons, if_pos rfl, Except.ok.injEq] at hpt
              subst hpt
              rw [tokenFrag_processSingle_piece, topicSegRender_plus (by rw [segIsPlus]; simp)]
              exact execFrags_singlePiece_nonseg '+' _ _ (by decide)
            · have hch : c ≠ '#' := by
                rw [segIsHash] at hnothash
                simpa using hnothash
              rw [processToken_cons, if_neg hcp, if_neg hch, Except.ok.injEq] at hpt
              subst hpt
              rw [tokenFrag_processRaw_piece]
              rw [topicSegRender_raw (by rw [segIsPlus]; simpa using hcp)
                (by rw [segIsHash]; simpa using hch)]
              apply exec_topic_raw_step (c :: key) hnoshead
              apply ih (t2 :: t3 :: ts4) hnstail htail
              obtain ⟨s, hs, hsw⟩ := hwild
              rcases List.mem_cons.mp hs with rfl | hs2
              · exfalso
                rw [segIsWildcard, segIsPlus, segIsHash] at hsw
                revert hsw
                simp [hcp, hch]
              · exact ⟨s, hs2, hsw⟩

/-! ### Multi captures of a successful match are well-formed -/

theorem execFrags_multiLast_cons₂ (f : Frag) (fs : List Frag) (input : List Char) :
    execFrags (Frag.multiLast :: f :: fs) input = none := rfl

theorem execFrags_multiPiece_cons (fs : List Frag) (input : List Char) :
    execFrags (Frag.multiPiece :: fs) input = none := rfl

theorem exec_caps_multiOk :
    ∀ (ts : List Token) (input : List Char) (caps : List (List Char)),
      execFrags (buildFrags ts) input = some caps →
      ∀ pr ∈ (caps.zip (removeRawTokens ts)), pr.2.type = TokenTypes.MULTI →
        multiOk pr.1 = true := by
  intro ts
  induction ts with
  | nil =>
    intro input caps h pr hpr _
    rw [show buildFrags [] = [] from rfl, execFrags_nil_def] at h
    by_cases hin : input.isEmpty = true
    · rw [if_pos hin] at h
      have h2 : caps = [] := by
        have h3 : (some [] : Option (List (List Char))) = some caps := h
        cases h3
        rfl
      rw [h2] at hpr
      simp at hpr
    · rw [if_neg hin] at h
      cases h
  | cons t ts2 ih =>
    intro input caps h pr hpr hmulti
    cases hty : t.type with
    | RAW =>
      rw [removeRawTokens_cons_raw hty] at hpr
      cases ts2 with
      | nil =>
        -- a single raw token: no captures can pair with anything
        rw [buildFrags_single] at h
        have hfrag : tokenFrag t true = Frag.rawLast t.last.data.dropLast.dropLast := by
          rw [tokenFrag.eq_def, hty]
        rw [hfrag, execFrags_rawLast_def] at h
        rw [removeRawTokens_nil] at hpr
        simp at hpr
      | cons t2 ts3 =>
        rw [buildFrags_cons₂] at h
        have hfrag : tokenFrag t (isBeforeMulti (t2 :: ts3)) =
            (if isBeforeMulti (t2 :: ts3) then Frag.rawLast t.last.data.dropLast.dropLast
             else Frag.rawPiece t.piece.data.dropLast) := by
          cases isBeforeMulti (t2 :: ts3) with
          | false =>
            rw [tokenFrag.eq_def, hty]
            rfl
          | true =>
            rw [tokenFrag.eq_def, hty]
            rfl
        rw [hfrag] at h
        by_cases hbm : isBeforeMulti (t2 :: ts3) = true
        · rw [hbm, if_pos rfl, execFrags_rawLast_def] at h
          cases hlc : litConsume t.last.data.dropLast.dropLast input with
          | none =>
            rw [hlc] at h
            cases h
          | some rem0 =>
            rw [hlc] at h
            cases rem0 with
            | nil =>
              exact ih [] caps h pr hpr hmulti
            | cons c rem =>
              by_cases hc : c = '/'
              · subst hc
                have h2 : (match execFrags (buildFrags (t2 :: ts3)) rem with
                  | some caps2 => some caps2
                  | none => execFrags (buildFrags (t2 :: ts3)) ('/' :: rem)) = some caps := h
                cases hex : execFrags (buildFrags (t2 :: ts3)) rem with
                | some caps2 =>
                  rw [hex] at h2
                  have h3 : caps2 = caps := by
                    have h4 : (some caps2 : Option (List (List Char))) = some caps := h2
                    cases h4
                    rfl
                  subst h3
                  exact ih rem caps2 hex pr hpr hmulti
                | none =>
                  rw [hex] at h2
                  exact ih ('/' :: rem) caps h2 pr hpr hmulti
              · have h2 : execFrags (buildFrags (t2 :: ts3)) (c :: rem) = some caps := by
                  have h3 : (if c = '/' then
                      (match execFrags (buildFrags (t2 :: ts3)) rem with
                       | some caps2 => some caps2
                       | none => execFrags (buildFrags (t2 :: ts3)) ('/' :: rem))
                    else execFrags (buildFrags (t2 :: ts3)) (c :: rem)) = some caps := h
                  rwa [if_neg hc] at h3
                exact ih (c :: rem) caps h2 pr hpr hmulti
        · have hbm2 : isBeforeMulti (t2 :: ts3) = false := by
            revert hbm
            cases isBeforeMulti (t2 :: ts3) <;> simp
          rw [hbm2] at h
          simp only [Bool.false_eq_true, if_false] at h
          rw [execFrags_rawPiece_def] at h
          cases hlc : litConsume t.piece.data.dropLast input with
          | none =>
            rw [hlc] at h
            cases h
          | some rem0 =>
            rw [hlc] at h
            cases rem0 with
            | nil => cases h
            | cons c rem =>
              by_cases hc : c = '/'
              · subst hc
                have h2 : execFrags (buildFrags (t2 :: ts3)) rem = some caps := by
                  have h3 : (if ('/' : Char) = '/' then execFrags (buildFrags (t2 :: ts3)) rem
                    else none) = some caps := h
                  rwa [if_pos rfl] at h3
                exact ih rem caps h2 pr hpr hmulti
              · have h3 : (if c = '/' then execFrags (buildFrags (t2 :: ts3)) rem
                  else none) = some caps := h
                rw [if_neg hc] at h3
                cases h3
    | MULTI =>
      cases ts2 with
      | nil =>
        rw [buildFrags_single, tokenFrag_true_of_multi hty, execFrags_multiLast] at h
        by_cases hmok : multiOk input = true
        · rw [hmok, if_pos rfl] at h
          have h2 : caps = [input] := by
            have h3 : (some [input] : Option (List (List Char))) = some caps := h
            cases h3
            rfl
          subst h2
          rw [removeRawTokens_cons_nonraw (multi_not_raw hty), removeRawTokens_nil] at hpr
          rw [List.zip_cons_cons] at hpr
          have hpr2 : pr = (input, t) := by
            rcases List.mem_cons.mp hpr with h4 | h4
            · exact h4
            · simp at h4
          rw [hpr2]
          exact hmok
        · have hmok2 : multiOk input = false := by
            revert hmok
            cases multiOk input <;> simp
          rw [hmok2] at h
          simp only [Bool.false_eq_true, if_false] at h
          cases h
      | cons t2 ts3 =>
        rw [buildFrags_cons₂] at h
        by_cases hbm : isBeforeMulti (t2 :: ts3) = true
        · rw [hbm, tokenFrag_true_of_multi hty] at h
          cases ts3 with
          | nil =>
            rw [buildFrags_single] at h
            rw [execFrags_multiLast_cons₂] at h
            cases h
          | cons t3 ts4 =>
            rw [buildFrags_cons₂] at h
            rw [execFrags_multiLast_cons₂] at h
            cases h
        · have hbm2 : isBeforeMulti (t2 :: ts3) = false := by
            revert hbm
            cases isBeforeMulti (t2 :: ts3) <;> simp
          rw [hbm2] at h
          have hfrag : tokenFrag t false = Frag.multiPiece := by
            rw [tokenFrag.eq_def, hty]
          rw [hfrag, execFrags_multiPiece_cons] at h
          cases h
    | SINGLE =>
      have hnotraw : ¬ t.type = TokenTypes.RAW := by
        rw [hty]
        decide
      have hnotmulti : ¬ t.type = TokenTypes.MULTI := by
        rw [hty]
        decide
      rw [removeRawTokens_cons_nonraw hnotraw] at hpr
      cases ts2 with
      | nil =>
        rw [buildFrags_single] at h
        have hfrag : tokenFrag t true = Frag.singleLast := by
          rw [tokenFrag.eq_def, hty]
        rw [hfrag] at h
        simp only [execFrags_singleLast_def] at h
        by_cases hrun : (input.takeWhile isSegChar).isEmpty = true
        · rw [if_pos hrun] at h
          cases h
        · rw [if_neg hrun] at h
          cases hdrop : input.drop (input.takeWhile isSegChar).length with
          | nil =>
            rw [hdrop] at h
            have h2 : (execFrags [] []).map
                (fun caps => input.takeWhile isSegChar :: caps) = some caps := h
            rw [execFrags_nil_def] at h2
            simp only [List.isEmpty_nil, if_pos, Option.map_some'] at h2
            have h3 : caps = [input.takeWhile isSegChar] := by
              have h4 : (some [input.takeWhile isSegChar] :
                Option (List (List Char))) = some caps := h2
              cases h4
              rfl
            subst h3
            rw [removeRawTokens_nil, List.zip_cons_cons] at hpr
            rcases List.mem_cons.mp hpr with h5 | h5
            · rw [h5] at hmulti
              exact absurd (hty ▸ hmulti) (by decide)
            · simp at h5
          | cons c rem =>
            rw [hdrop] at h
            by_cases hc : c = '/'
            · subst hc
              have h2 : (match execFrags [] rem with
                  | some caps2 => some ((input.takeWhile isSegChar ++ ['/']) :: caps2)
                  | none => (execFrags [] ('/' :: rem)).map
                      (fun caps => input.takeWhile isSegChar :: caps)) = some caps := h
              cases hex : execFrags [] rem with
              | some caps2 =>
                rw [hex] at h2
                have h3 : caps = (input.takeWhile isSegChar ++ ['/']) :: caps2 := by
                  have h4 : (some ((input.takeWhile isSegChar ++ ['/']) :: caps2) :
                    Option (List (List Char))) = some caps := h2
                  cases h4
                  rfl
                subst h3
                have hcaps2 : caps2 = [] := by
                  rw [execFrags_nil_def] at hex
                  by_cases hr : rem.isEmpty = true
                  · rw [if_pos hr] at hex
                    have h6 : (some [] : Option (List (List Char))) = some caps2 := hex
                    cases h6
                    rfl
                  · rw [if_neg hr] at hex
                    cases hex
                subst hcaps2
                rw [removeRawTokens_nil, List.zip_cons_cons] at hpr
                rcases List.mem_cons.mp hpr with h5 | h5
                · rw [h5] at hmulti
                  exact absurd (hty ▸ hmulti) (by decide)
                · simp at h5
              | none =>
                rw [hex] at h2
                rw [execFrags_nil_def] at h2
                by_cases hr : ('/' :: rem).isEmpty = true
                · simp at hr
                · rw [if_neg hr] at h2
                  cases h2
            · have h2 : (execFrags [] (c :: rem)).map
                  (fun caps => input.takeWhile isSegChar :: caps) = some caps := by
                have h3 : (if c = '/' then
                    (match execFrags [] rem with
                     | some caps2 => some ((input.takeWhile isSegChar ++ ['/']) :: caps2)
                     | none => (execFrags [] ('/' :: rem)).map
                         (fun caps => input.takeWhile isSegChar :: caps))
                  else (execFrags [] (c :: rem)).map
                      (fun caps => input.takeWhile isSegChar :: caps)) = some caps := h
                rwa [if_neg hc] at h3
              rw [execFrags_nil_def] at h2
              by_cases hr : (c :: rem).isEmpty = true
              · simp at hr
              · rw [if_neg hr] at h2
                cases h2
      | cons t2 ts3 =>
        rw [buildFrags_cons₂] at h
        -- both fragment forms of a single token produce one leading capture
        have hstep : ∀ (fs : List Frag) (caps0 : List (List Char)),
            execFrags (tokenFrag t (isBeforeMulti (t2 :: ts3)) :: fs) input = some caps0 →
            ∃ c0 caps2 input2, caps0 = c0 :: caps2 ∧ execFrags fs input2 = some caps2 := by
          intro fs caps0 hex
          have hfrag : tokenFrag t (isBeforeMulti (t2 :: ts3)) =
              (if isBeforeMulti (t2 :: ts3) then Frag.singleLast else Frag.singlePiece) := by
            cases isBeforeMulti (t2 :: ts3) with
            | false =>
              rw [tokenFrag.eq_def, hty]
              rfl
            | true =>
              rw [tokenFrag.eq_def, hty]
              rfl
          rw [hfrag] at hex
          by_cases hbm : isBeforeMulti (t2 :: ts3) = true
          · rw [hbm, if_pos rfl] at hex
            simp only [execFrags_singleLast_def] at hex
            by_cases hrun : (input.takeWhile isSegChar).isEmpty = true
            · rw [if_pos hrun] at hex
              cases hex
            · rw [if_neg hrun] at hex
              cases hdrop : input.drop (input.takeWhile isSegChar).length with
              | nil =>
                rw [hdrop] at hex
                cases hex2 : execFrags fs [] with
                | none =>
                  rw [hex2] at hex
                  cases hex
                | some caps2 =>
                  rw [hex2] at hex
                  have h4 : (some (input.takeWhile isSegChar :: caps2) :
                    Option (List (List Char))) = some caps0 := hex
                  cases h4
                  exact ⟨_, caps2, [], rfl, hex2⟩
              | cons c rem =>
                rw [hdrop] at hex
                by_cases hc : c = '/'
                · subst hc
                  have h2 : (match execFrags fs rem with
                      | some caps2 => some ((input.takeWhile isSegChar ++ ['/']) :: caps2)
                      | none => (execFrags fs ('/' :: rem)).map
                          (fun caps => input.takeWhile isSegChar :: caps)) = some caps0 := hex
                  cases hex2 : execFrags fs rem with
                  | some caps2 =>
                    rw [hex2] at h2
                    have h4 : (some ((input.takeWhile isSegChar ++ ['/']) :: caps2) :
                      Option (List (List Char))) = some caps0 := h2
                    cases h4
                    exact ⟨_, caps2, rem, rfl, hex2⟩
                  | none =>
                    rw [hex2] at h2
                    cases hex3 : execFrags fs ('/' :: rem) with
                    | none =>
                      rw [hex3] at h2
                      cases h2
                    | some caps2 =>
                      rw [hex3] at h2
                      have h4 : (some (input.takeWhile isSegChar :: caps2) :
                        Option (List (List Char))) = some caps0 := h2
                      cases h4
                      exact ⟨_, caps2, '/' :: rem, rfl, hex3⟩
                · have h2 : (execFrags fs (c :: rem)).map
                      (fun caps => input.takeWhile isSegChar :: caps) = some caps0 := by
                    have h3 : (if c = '/' then
                        (match execFrags fs rem with
                         | some caps2 => some ((input.takeWhile isSegChar ++ ['/']) :: caps2)
                         | none => (execFrags fs ('/' :: rem)).map
                             (fun caps => input.takeWhile isSegChar :: caps))
                      else (execFrags fs (c :: rem)).map
                          (fun caps => input.takeWhile isSegChar :: caps)) = some caps0 := hex
                    rwa [if_neg hc] at h3
                  cases hex2 : execFrags fs (c :: rem) with
                  | none =>
                    rw [hex2] at h2
                    cases h2
                  | some caps2 =>
                    rw [hex2] at h2
                    have h4 : (some (input.takeWhile isSegChar :: caps2) :
                      Option (List (List Char))) = some caps0 := h2
                    cases h4
                    exact ⟨_, caps2, c :: rem, rfl, hex2⟩
          · have hbm2 : isBeforeMulti (t2 :: ts3) = false := by
              revert hbm
              cases isBeforeMulti (t2 :: ts3) <;> simp
            rw [hbm2] at hex
            simp only [Bool.false_eq_true, if_false] at hex
            simp only [execFrags_singlePiece_def] at hex
            by_cases hrun : (input.takeWhile isSegChar).isEmpty = true
            · rw [if_pos hrun] at hex
              cases hex
            · rw [if_neg hrun] at hex
              cases hdrop : input.drop (input.takeWhile isSegChar).length with
              | nil =>
                rw [hdrop] at hex
                cases hex
              | cons c rem =>
                rw [hdrop] at hex
                by_cases hc : c = '/'
                · subst hc
                  have h2 : (execFrags fs rem).map
                      (fun caps => (input.takeWhile isSegChar ++ ['/']) :: caps) =
                      some caps0 := by
                    have h3 : (if ('/' : Char) = '/' then (execFrags fs rem).map
                        (fun caps => (input.takeWhile isSegChar ++ ['/']) :: caps)
                      else none) = some caps0 := hex
                    rwa [if_pos rfl] at h3
                  cases hex2 : execFrags fs rem with
                  | none =>
                    rw [hex2] at h2
                    cases h2
                  | some caps2 =>
                    rw [hex2] at h2
                    have h4 : (some ((input.takeWhile isSegChar ++ ['/']) :: caps2) :
                      Option (List (List Char))) = some caps0 := h2
                    cases h4
                    exact ⟨_, caps2, rem, rfl, hex2⟩
                · have h3 : (if c = '/' then (execFrags fs rem).map
                      (fun caps => (input.takeWhile isSegChar ++ ['/']) :: caps)
                    else none) = some caps0 := hex
                  rw [if_neg hc] at h3
                  cases h3
        obtain ⟨c0, caps2, input2, rfl, hex2⟩ := hstep (buildFrags (t2 :: ts3)) caps h
        rw [List.zip_cons_cons] at hpr
        rcases List.mem_cons.mp hpr with h5 | h5
        · rw [h5] at hmulti
          exact absurd (hty ▸ hmulti) (by decide)
        · exact ih input2 caps2 hex2 pr h5 hmulti

/-! ### The fragment model renders back to the assembled regex source -/

theorem tokenize_wf :
    ∀ (segs : List (List Char)) (ts : List Token), tokenizeAux segs = Except.ok ts →
      ∀ t ∈ ts, Token.WF t := by
  intro segs
  have hone : ∀ (seg : List Char) (b : Bool) (t : Token),
      processToken seg b = Except.ok t → Token.WF t := by
    intro seg b t hpt
    cases seg with
    | nil =>
      rw [processToken_nil, Except.ok.injEq] at hpt
      subst hpt
      exact ⟨escapeChars [], rfl, rfl⟩
    | cons c key =>
      by_cases hcp : c = '+'
      · subst hcp
        rw [processToken_cons, if_pos rfl, Except.ok.injEq] at hpt
        subst hpt
        exact ⟨rfl, rfl⟩
      · by_cases hch : c = '#'
        · subst hch
          rw [processToken_cons, if_neg (by decide)] at hpt
          rw [if_pos rfl] at hpt
          cases b with
          | false =>
            rw [processMulti_false] at hpt
            have h3 : (Except.error "# wildcard must be at the end of the pattern" :
              Except String Token) = Except.ok t := hpt
            cases h3
          | true =>
            rw [processMulti_true, Except.ok.injEq] at hpt
            subst hpt
            exact ⟨rfl, rfl⟩
        · rw [processToken_cons, if_neg hcp, if_neg hch, Except.ok.injEq] at hpt
          subst hpt
          exact ⟨escapeChars (c :: key), rfl, rfl⟩
  induction segs with
  | nil =>
    intro ts h t ht
    rw [tokenizeAux_nil_inv h] at ht
    simp at ht
  | cons seg rest ih =>
    intro ts h t ht
    cases rest with
    | nil =>
      obtain ⟨t2, hpt, rfl⟩ := tokenizeAux_single_inv h
      rw [List.mem_singleton.mp ht]
      exact hone seg true t2 hpt
    | cons s2 rest2 =>
      obtain ⟨t2, ts2, hpt, hts2, rfl⟩ := tokenizeAux_cons₂_inv h
      rcases List.mem_cons.mp ht with rfl | ht2
      · exact hone seg false t hpt
      · exact ih ts2 hts2 t ht2

theorem stringJoin_cons (s : String) (l : List String) :
    String.join (s :: l) = s ++ String.join l := by
  apply String.ext
  simp [String.join_eq]

theorem fragRender_tokenFrag {t : Token} (h : Token.WF t) (b : Bool) :
    fragRender (tokenFrag t b) = (if b then t.last else t.piece) := by
  rw [Token.WF] at h
  cases hty : t.type with
  | SINGLE =>
    rw [hty] at h
    have hfrag : tokenFrag t b = (if b then Frag.singleLast else Frag.singlePiece) := by
      cases b with
      | false =>
        rw [tokenFrag.eq_def, hty]
        rfl
      | true =>
        rw [tokenFrag.eq_def, hty]
        rfl
    rw [hfrag]
    cases b with
    | false =>
      rw [if_neg (by simp), if_neg (by simp), h.1]
      rfl
    | true =>
      rw [if_pos rfl, if_pos rfl, h.2]
      rfl
  | MULTI =>
    rw [hty] at h
    have hfrag : tokenFrag t b = (if b then Frag.multiLast else Frag.multiPiece) := by
      cases b with
      | false =>
        rw [tokenFrag.eq_def, hty]
        rfl
      | true =>
        rw [tokenFrag.eq_def, hty]
        rfl
    rw [hfrag]
    cases b with
    | false =>
      rw [if_neg (by simp), if_neg (by simp), h.1]
      rfl
    | true =>
      rw [if_pos rfl, if_pos rfl, h.2]
      rfl
  | RAW =>
    rw [hty] at h
    obtain ⟨esc, hp, hl⟩ := h
    have hfrag : tokenFrag t b =
        (if b then Frag.rawLast t.last.data.dropLast.dropLast
         else Frag.rawPiece t.piece.data.dropLast) := by
      cases b with
      | false =>
        rw [tokenFrag.eq_def, hty]
        rfl
      | true =>
        rw [tokenFrag.eq_def, hty]
        rfl
    rw [hfrag]
    cases b with
    | false =>
      rw [if_neg (by simp), if_neg (by simp), hp]
      rw [fragRender]
      rw [show ((⟨esc ++ ['/']⟩ : String).data) = esc ++ ['/'] from rfl]
      rw [List.dropLast_concat]
    | true =>
      rw [if_pos rfl, if_pos rfl, hl]
      rw [fragRender]
      rw [show ((⟨esc ++ ['/', '?']⟩ : String).data) = esc ++ ['/', '?'] from rfl]
      have hsplit : esc ++ ['/', '?'] = (esc ++ ['/']) ++ ['?'] := by simp
      rw [hsplit, List.dropLast_concat, List.dropLast_concat]
      exact congrArg String.mk hsplit

theorem buildRegexCore_eq (all : List Token) :
    ∀ (rest pre : List Token), all = pre ++ rest → (∀ t ∈ rest, Token.WF t) →
      buildRegexCore all pre.length rest =
        String.join ((buildFrags rest).map fragRender) := by
  intro rest
  induction rest with
  | nil =>
    intro pre _ _
    rfl
  | cons t rest2 ih =>
    intro pre hall hwf
    cases rest2 with
    | nil =>
      rw [buildRegexCore]
      have hlen : all.length = pre.length + 1 := by
        rw [hall]
        simp
      have hisLast : (pre.length + 1 == all.length) = true := by
        rw [hlen]
        simp
      rw [hisLast]
      rw [show (true || ((pre.length + 2 == all.length) &&
        ((all.getLast?).map Token.type == some TokenTypes.MULTI))) = true from by simp]
      rw [if_pos rfl]
      rw [buildFrags_single, List.map_cons, List.map_nil]
      rw [fragRender_tokenFrag (hwf t (List.mem_singleton.mpr rfl)) true]
      rw [if_pos rfl]
      show t.last ++ buildRegexCore all (pre.length + 1) [] = String.join [t.last]
      rw [show buildRegexCore all (pre.length + 1) [] = "" from rfl]
      simp [String.join]
    | cons t2 rest3 =>
      rw [buildRegexCore]
      have hlen : all.length = pre.length + 2 + rest3.length := by
        rw [hall]
        simp
        omega
      have hisLast : (pre.length + 1 == all.length) = false := by
        rw [hlen]
        simp only [beq_eq_false_iff_ne, ne_eq]
        omega
      rw [hisLast]
      cases rest3 with
      | nil =>
        have hbm : (pre.length + 2 == all.length) = true := by
          rw [hlen]
          simp
        have hgl : all.getLast? = some t2 := by
          rw [hall, show pre ++ [t, t2] = (pre ++ [t]) ++ [t2] from by simp]
          exact List.getLast?_concat (pre ++ [t])
        rw [hbm, hgl]
        have hpre2 : all = (pre ++ [t]) ++ [t2] := by
          rw [hall]
          simp
        have hrec := ih (pre ++ [t]) hpre2 (fun u hu => hwf u (List.mem_cons_of_mem t hu))
        rw [show (pre ++ [t]).length = pre.length + 1 from by simp] at hrec
        rw [hrec]
        rw [buildFrags_cons₂, List.map_cons]
        rw [fragRender_tokenFrag (hwf t (List.mem_cons_self _ _)) (isBeforeMulti [t2])]
        rw [isBeforeMulti_single]
        rw [show (Option.map Token.type (some t2) == some TokenTypes.MULTI) =
          (t2.type == TokenTypes.MULTI) from by simp]
        cases hb : (t2.type == TokenTypes.MULTI) with
        | false =>
          rw [show (false || (true && false)) = false from rfl]
          simp [stringJoin_cons]
        | true =>
          rw [show (false || (true && true)) = true from rfl]
          simp [stringJoin_cons]
      | cons t3 rest4 =>
        have hbm : (pre.length + 2 == all.length) = false := by
          rw [hlen]
          simp only [beq_eq_false_iff_ne, ne_eq]
          simp
        rw [hbm]
        rw [show (false || (false && ((all.getLast?).map Token.type ==
          some TokenTypes.MULTI))) = false from by simp]
        have hpre2 : all = (pre ++ [t]) ++ (t2 :: t3 :: rest4) := by
          rw [hall]
          simp
        have hrec := ih (pre ++ [t]) hpre2 (fun u hu => hwf u (List.mem_cons_of_mem t hu))
        rw [show (pre ++ [t]).length = pre.length + 1 from by simp] at hrec
        conv_rhs => rw [buildFrags_cons₂, List.map_cons, stringJoin_cons]
        rw [fragRender_tokenFrag (hwf t (List.mem_cons_self _ _))
          (isBeforeMulti (t2 :: t3 :: rest4))]
        rw [isBeforeMulti_cons₂]
        rw [hrec]

theorem buildRegularExpression_renders {segs : List (List Char)} {ts : List Token}
    (h : tokenizeAux segs = Except.ok ts) :
    buildRegularExpression ts =
      "^" ++ String.join ((buildFrags ts).map fragRender) ++ "$" := by
  rw [buildRegularExpression]
  rw [show (0 : Nat) = ([] : List Token).length from rfl]
  rw [buildRegexCore_eq ts ts [] (by simp) (tokenize_wf segs ts h)]

/-! ### Patterns without wildcards -/

theorem substSegC_empty_params (seg : List Char) : substSegC [] seg = seg := by
  cases seg with
  | nil => rfl
  | cons c key =>
    rw [substSegC]
    by_cases hcp : c = '+'
    · rw [if_pos hcp]
      rfl
    · rw [if_neg hcp]
      by_cases hch : c = '#'
      · rw [if_pos hch]
        rfl
      · rw [if_neg hch]

theorem buildParameterizedTopic_empty (p : Pattern) :
    p.buildParameterizedTopic [] = p.pattern := by
  rw [Pattern.buildParameterizedTopic]
  have hmap : (splitOnSlash p.pattern.data).map (substSegC []) =
      splitOnSlash p.pattern.data := by
    have h2 : (splitOnSlash p.pattern.data).map (substSegC []) =
        (splitOnSlash p.pattern.data).map id := by
      apply List.map_congr_left
      intro s _
      rw [substSegC_empty_params]
      rfl
    rw [h2, List.map_id]
  rw [hmap, joinSlash_splitOnSlash]

theorem tokens_all_raw :
    ∀ (segs : List (List Char)) (ts : List Token), tokenizeAux segs = Except.ok ts →
      (∀ s ∈ segs, segIsWildcard s = false) →
      ∀ t ∈ ts, t.type = TokenTypes.RAW := by
  intro segs
  have hone : ∀ (seg : List Char) (b : Bool) (t : Token),
      segIsWildcard seg = false → processToken seg b = Except.ok t →
      t.type = TokenTypes.RAW := by
    intro seg b t hw hpt
    cases seg with
    | nil =>
      rw [processToken_nil, Except.ok.injEq] at hpt
      subst hpt
      rfl
    | cons c key =>
      rw [segIsWildcard, segIsPlus, segIsHash] at hw
      have hcp : c ≠ '+' := by
        intro hh
        subst hh
        simp at hw
      have hch : c ≠ '#' := by
        intro hh
        subst hh
        simp at hw
      rw [processToken_cons, if_neg hcp, if_neg hch, Except.ok.injEq] at hpt
      subst hpt
      rfl
  induction segs with
  | nil =>
    intro ts h _ t ht
    rw [tokenizeAux_nil_inv h] at ht
    simp at ht
  | cons seg rest ih =>
    intro ts h hw t ht
    cases rest with
    | nil =>
      obtain ⟨t2, hpt, rfl⟩ := tokenizeAux_single_inv h
      rw [List.mem_singleton.mp ht]
      exact hone seg true t2 (hw seg (List.mem_cons_self _ _)) hpt
    | cons s2 rest2 =>
      obtain ⟨t2, ts2, hpt, hts2, rfl⟩ := tokenizeAux_cons₂_inv h
      rcases List.mem_cons.mp ht with rfl | ht2
      · exact hone seg false t (hw seg (List.mem_cons_self _ _)) hpt
      · exact ih ts2 hts2 (fun s hs => hw s (List.mem_cons_of_mem _ hs)) t ht2

theorem buildParameterCount_raw {ts : List Token}
    (h : ∀ t ∈ ts, t.type = TokenTypes.RAW) : buildParameterCount ts = 0 := by
  rw [buildParameterCount]
  have hempty : (ts.filter (fun t =>
      t.type ≠ TokenTypes.RAW &&
        match t.name with
        | some n => n.length > 0
        | none => false)) = [] := by
    rw [List.filter_eq_nil_iff]
    intro t ht
    rw [h t ht]
    simp
  rw [hempty]
  rfl

/-! ### Inverting a successful match: which inputs a wildcard-free-of-multi
pattern accepts -/

theorem takeWhile_all_mem {p : Char → Bool} :
    ∀ {l : List Char} {c : Char}, c ∈ l.takeWhile p → p c = true := by
  intro l
  induction l with
  | nil =>
    intro c h
    simp [List.takeWhile] at h
  | cons a t ih =>
    intro c h
    rw [List.takeWhile_cons] at h
    cases hp : p a with
    | false =>
      rw [hp] at h
      simp at h
    | true =>
      rw [hp] at h
      simp only [if_true] at h
      rcases List.mem_cons.mp h with h | h
      · rw [h]; exact hp
      · exact ih h

theorem takeWhile_decomp (p : Char → Bool) (l : List Char) :
    l.takeWhile p ++ l.drop (l.takeWhile p).length = l := by
  have hpre : l.takeWhile p <+: l := List.takeWhile_prefix _
  obtain ⟨t, ht⟩ := hpre
  have hdrop : l.drop (l.takeWhile p).length = t := by
    have h2 := List.drop_left (l.takeWhile p) t
    rwa [ht] at h2
  rw [hdrop, ht]

theorem validSeg_takeWhile {input : List Char}
    (h : ¬ (input.takeWhile isSegChar).isEmpty = true) :
    validSeg (input.takeWhile isSegChar) = true := by
  rw [validSeg]
  have h1 : (input.takeWhile isSegChar).isEmpty = false := by
    cases hie : (input.takeWhile isSegChar).isEmpty
    · rfl
    · exact absurd hie h
  have h2 : (input.takeWhile isSegChar).all isSegChar = true := by
    rw [List.all_eq_true]
    intro c hc
    exact takeWhile_all_mem hc
  rw [h1, h2]
  rfl

theorem processToken_inv {seg : List Char} {b : Bool} {t : Token}
    (h : processToken seg b = Except.ok t) (hh : segIsHash seg = false) :
    (segIsPlus seg = true ∧ t = processSingle seg) ∨
      (segIsPlus seg = false ∧ t = processRaw seg) := by
  cases seg with
  | nil =>
    rw [processToken_nil] at h
    have h2 : (Except.ok (processRaw []) : Except String Token) = Except.ok t := h
    cases h2
    exact Or.inr ⟨rfl, rfl⟩
  | cons c key =>
    rw [processToken_cons] at h
    by_cases hc : c = '+'
    · rw [if_pos hc] at h
      have h2 : (Except.ok (processSingle (c :: key)) : Except String Token) = Except.ok t := h
      cases h2
      refine Or.inl ⟨?_, rfl⟩
      show (c == '+') = true
      exact beq_iff_eq.mpr hc
    · rw [if_neg hc] at h
      have hc2 : ¬ c = '#' := by
        intro hcc
        have : segIsHash (c :: key) = true := by
          show (c == '#') = true
          exact beq_iff_eq.mpr hcc
        rw [hh] at this
        exact Bool.noConfusion this
      rw [if_neg hc2] at h
      have h2 : (Except.ok (processRaw (c :: key)) : Except String Token) = Except.ok t := h
      cases h2
      refine Or.inr ⟨?_, rfl⟩
      show (c == '+') = false
      exact beq_eq_false_iff_ne.mpr hc

theorem isBeforeMulti_false_of_ok {segs : List (List Char)} {ts : List Token}
    (h : tokenizeAux segs = Except.ok ts) (hh : ∀ s ∈ segs, segIsHash s = false) :
    isBeforeMulti ts = false := by
  cases ts with
  | nil => rfl
  | cons m rest =>
    cases rest with
    | cons _ _ => rfl
    | nil =>
      have hlen := tokenizeAux_length h
      cases segs with
      | nil => simp at hlen
      | cons s srest =>
        cases srest with
        | cons _ _ => simp at hlen
        | nil =>
          obtain ⟨t, hpt, hts⟩ := tokenizeAux_single_inv h
          rw [List.cons.injEq] at hts
          obtain ⟨hmt, -⟩ := hts
          rw [isBeforeMulti_single, hmt]
          exact processToken_type_not_multi hpt (hh s (List.mem_singleton.mpr rfl))

theorem execFrags_rawPiece_cons_inv {seg : List Char} {fs : List Frag}
    {input : List Char} {caps : List (List Char)}
    (h : execFrags (Frag.rawPiece (escapeChars seg) :: fs) input = some caps) :
    ∃ rem, input = seg ++ '/' :: rem ∧ execFrags fs rem = some caps := by
  rw [execFrags_rawPiece_def] at h
  cases hlit : litConsume (escapeChars seg) input with
  | none =>
    rw [hlit] at h
    exact Option.noConfusion h
  | some rem0 =>
    rw [hlit] at h
    cases rem0 with
    | nil => exact Option.noConfusion h
    | cons c rem =>
      by_cases hc : c = '/'
      · subst hc
        have h2 : execFrags fs rem = some caps := h
        exact ⟨rem, litConsume_escapeChars_eq hlit, h2⟩
      · have h2 : (if c = '/' then execFrags fs rem
            else (none : Option (List (List Char)))) = some caps := h
        rw [if_neg hc] at h2
        exact Option.noConfusion h2

theorem execFrags_singlePiece_cons_inv {fs : List Frag}
    {input : List Char} {caps : List (List Char)}
    (h : execFrags (Frag.singlePiece :: fs) input = some caps) :
    ∃ v rem caps2, validSeg v = true ∧ input = v ++ '/' :: rem ∧
      execFrags fs rem = some caps2 := by
  simp only [execFrags_singlePiece_def] at h
  by_cases hrun : (input.takeWhile isSegChar).isEmpty = true
  · rw [if_pos hrun] at h
    exact Option.noConfusion h
  · rw [if_neg hrun] at h
    cases hdrop : input.drop (input.takeWhile isSegChar).length with
    | nil =>
      rw [hdrop] at h
      exact Option.noConfusion h
    | cons c rem =>
      rw [hdrop] at h
      by_cases hc : c = '/'
      · subst hc
        have h2 : (execFrags fs rem).map
            (fun caps2 => (input.takeWhile isSegChar ++ ['/']) :: caps2) = some caps := h
        cases hrec : execFrags fs rem with
        | none =>
          rw [hrec] at h2
          exact Option.noConfusion h2
        | some caps2 =>
          refine ⟨input.takeWhile isSegChar, rem, caps2, validSeg_takeWhile hrun, ?_, hrec⟩
          have hdec := takeWhile_decomp isSegChar input
          rw [hdrop] at hdec
          exact hdec.symm
      · have h2 : (if c = '/' then _ else (none : Option (List (List Char)))) = some caps := h
        rw [if_neg hc] at h2
        exact Option.noConfusion h2

theorem execFrags_rawLast_nil_inv {seg : List Char} {input : List Char}
    {caps : List (List Char)}
    (h : execFrags [Frag.rawLast (escapeChars seg)] input = some caps) :
    input = seg ∨ input = seg ++ ['/'] := by
  rw [execFrags_rawLast_def] at h
  cases hlit : litConsume (escapeChars seg) input with
  | none =>
    rw [hlit] at h
    exact Option.noConfusion h
  | some rem0 =>
    rw [hlit] at h
    have hin := litConsume_escapeChars_eq hlit
    cases rem0 with
    | nil =>
      left
      rw [hin, List.append_nil]
    | cons c rem =>
      by_cases hc : c = '/'
      · subst hc
        cases rem with
        | nil =>
          right
          exact hin
        | cons r rem2 =>
          have h2 : (none : Option (List (List Char))) = some caps := h
          exact Option.noConfusion h2
      · have h2 : (if c = '/' then _
            else execFrags ([] : List Frag) (c :: rem)) = some caps := h
        rw [if_neg hc] at h2
        have h3 : (none : Option (List (List Char))) = some caps := h2
        exact Option.noConfusion h3

theorem execFrags_singleLast_nil_inv {input : List Char} {caps : List (List Char)}
    (h : execFrags [Frag.singleLast] input = some caps) :
    ∃ v, validSeg v = true ∧ (input = v ∨ input = v ++ ['/']) := by
  simp only [execFrags_singleLast_def] at h
  by_cases hrun : (input.takeWhile isSegChar).isEmpty = true
  · rw [if_pos hrun] at h
    exact Option.noConfusion h
  · rw [if_neg hrun] at h
    cases hdrop : input.drop (input.takeWhile isSegChar).length with
    | nil =>
      refine ⟨input.takeWhile isSegChar, validSeg_takeWhile hrun, Or.inl ?_⟩
      have hdec := takeWhile_decomp isSegChar input
      rw [hdrop, List.append_nil] at hdec
      exact hdec.symm
    | cons c rem =>
      rw [hdrop] at h
      by_cases hc : c = '/'
      · subst hc
        cases rem with
        | nil =>
          refine ⟨input.takeWhile isSegChar, validSeg_takeWhile hrun, Or.inr ?_⟩
          have hdec := takeWhile_decomp isSegChar input
          rw [hdrop] at hdec
          exact hdec.symm
        | cons r rem2 =>
          have h2 : (none : Option (List (List Char))) = some caps := h
          exact Option.noConfusion h2
      · have h2 : (if c = '/' then _ else (execFrags ([] : List Frag) (c :: rem)).map
            (fun caps2 => input.takeWhile isSegChar :: caps2)) = some caps := h
        rw [if_neg hc] at h2
        have h3 : (none : Option (List (List Char))) = some caps := h2
        exact Option.noConfusion h3

/-- inverting a successful match of a multi-free pattern: the input is the
`/`-join of one part per pattern segment (with an optional trailing slash),
where a single-wildcard position holds an arbitrary valid segment and every
other position holds exactly the pattern's segment. -/
theorem exec_parts :
    ∀ (segs : List (List Char)) (ts : List Token) (input : List Char)
      (caps : List (List Char)),
      tokenizeAux segs = Except.ok ts →
      (∀ s ∈ segs, segIsHash s = false) →
      execFrags (buildFrags ts) input = some caps →
      ∃ parts : List (List Char),
        (input = joinSlash parts ∨ input = joinSlash parts ++ ['/']) ∧
        parts.length = segs.length ∧
        ∀ pr ∈ parts.zip segs,
          (segIsPlus pr.2 = true → validSeg pr.1 = true) ∧
          (segIsPlus pr.2 = false → pr.1 = pr.2) := by
  intro segs
  induction segs with
  | nil =>
    intro ts input caps htok hh hexec
    have hts := tokenizeAux_nil_inv htok
    subst hts
    have hin : input = [] := by
      by_contra hne
      rw [show buildFrags [] = [] from rfl, execFrags_nil_def,
        if_neg (fun hcon => hne (List.isEmpty_iff.mp hcon))] at hexec
      exact Option.noConfusion hexec
    subst hin
    exact ⟨[], Or.inl rfl, rfl, fun pr hpr => absurd hpr (by simp)⟩
  | cons seg rest ih =>
    intro ts input caps htok hh hexec
    cases rest with
    | nil =>
      obtain ⟨t, hpt, hts⟩ := tokenizeAux_single_inv htok
      subst hts
      rw [buildFrags_single] at hexec
      rcases processToken_inv hpt (hh seg (List.mem_singleton.mpr rfl)) with
        ⟨hplus, hteq⟩ | ⟨hplus, hteq⟩
      · subst hteq
        rw [tokenFrag_processSingle_last] at hexec
        obtain ⟨v, hv, hin⟩ := execFrags_singleLast_nil_inv hexec
        refine ⟨[v], ?_, rfl, ?_⟩
        · rcases hin with hin | hin
          · exact Or.inl hin
          · exact Or.inr hin
        · intro pr hpr
          rw [List.mem_singleton.mp hpr]
          exact ⟨fun _ => hv, fun hcon => by rw [hplus] at hcon; exact Bool.noConfusion hcon⟩
      · subst hteq
        rw [tokenFrag_processRaw_last] at hexec
        rcases execFrags_rawLast_nil_inv hexec with hin | hin
        · refine ⟨[seg], Or.inl hin, rfl, ?_⟩
          intro pr hpr
          rw [List.mem_singleton.mp hpr]
          exact ⟨fun hcon => by rw [hplus] at hcon; exact Bool.noConfusion hcon, fun _ => rfl⟩
        · refine ⟨[seg], Or.inr hin, rfl, ?_⟩
          intro pr hpr
          rw [List.mem_singleton.mp hpr]
          exact ⟨fun hcon => by rw [hplus] at hcon; exact Bool.noConfusion hcon, fun _ => rfl⟩
    | cons s2 rest2 =>
      obtain ⟨t, ts2, hpt, htok2, hts⟩ := tokenizeAux_cons₂_inv htok
      subst hts
      have hlen2 := tokenizeAux_length htok2
      cases ts2 with
      | nil => simp at hlen2
      | cons t2 ts3 =>
        rw [buildFrags_cons₂] at hexec
        rw [show isBeforeMulti (t2 :: ts3) = false from
          isBeforeMulti_false_of_ok htok2
            (fun s hs => hh s (List.mem_cons_of_mem seg hs))] at hexec
        rcases processToken_inv hpt (hh seg (List.mem_cons_self seg (s2 :: rest2))) with
          ⟨hplus, hteq⟩ | ⟨hplus, hteq⟩
        · subst hteq
          rw [tokenFrag_processSingle_piece] at hexec
          obtain ⟨v, rem, caps2, hv, hin, hrec⟩ := execFrags_singlePiece_cons_inv hexec
          obtain ⟨parts2, hjoin, hplen, hcond⟩ := ih (t2 :: ts3) rem caps2 htok2
            (fun s hs => hh s (List.mem_cons_of_mem seg hs)) hrec
          have hp2ne : parts2 ≠ [] := by
            intro hcon
            rw [hcon] at hplen
            simp at hplen
          refine ⟨v :: parts2, ?_, by simp [hplen], ?_⟩
          · rcases hjoin with hj | hj
            · exact Or.inl (by rw [hin, hj, joinSlash_cons hp2ne])
            · refine Or.inr ?_
              rw [hin, hj, joinSlash_cons hp2ne]
              simp
          · intro pr hpr
            rw [List.zip_cons_cons] at hpr
            rcases List.mem_cons.mp hpr with hpr | hpr
            · rw [hpr]
              exact ⟨fun _ => hv,
                fun hcon => by rw [hplus] at hcon; exact Bool.noConfusion hcon⟩
            · exact hcond pr hpr
        · subst hteq
          rw [tokenFrag_processRaw_piece] at hexec
          obtain ⟨rem, hin, hrec⟩ := execFrags_rawPiece_cons_inv hexec
          obtain ⟨parts2, hjoin, hplen, hcond⟩ := ih (t2 :: ts3) rem caps htok2
            (fun s hs => hh s (List.mem_cons_of_mem seg hs)) hrec
          have hp2ne : parts2 ≠ [] := by
            intro hcon
            rw [hcon] at hplen
            simp at hplen
          refine ⟨seg :: parts2, ?_, by simp [hplen], ?_⟩
          · rcases hjoin with hj | hj
            · exact Or.inl (by rw [hin, hj, joinSlash_cons hp2ne])
            · refine Or.inr ?_
              rw [hin, hj, joinSlash_cons hp2ne]
              simp
          · intro pr hpr
            rw [List.zip_cons_cons] at hpr
            rcases List.mem_cons.mp hpr with hpr | hpr
            · rw [hpr]
              exact ⟨fun hcon => by rw [hplus] at hcon; exact Bool.noConfusion hcon,
                fun _ => rfl⟩
            · exact hcond pr hpr

theorem joinSlash_concat_nil {parts : List (List Char)} (h : parts ≠ []) :
    joinSlash (parts ++ [[]]) = joinSlash parts ++ ['/'] := by
  induction parts with
  | nil => exact absurd rfl h
  | cons x rest ih =>
    cases rest with
    | nil => rfl
    | cons y rest2 =>
      rw [show (x :: y :: rest2) ++ [[]] = x :: ((y :: rest2) ++ [[]]) from rfl]
      rw [joinSlash_cons (by simp), ih (by simp), joinSlash_cons₂]
      simp

/-- inverting `Pattern.match` for a multi-free pattern, phrased on the
topic's `/`-split segments: a matching topic has one part per pattern
segment (plus possibly one empty trailing part from a trailing slash);
single-wildcard positions hold valid segments, all other positions hold the
pattern's own segment. -/
theorem matchTopic_parts {p : String} {pat : Pattern} {topic : String} {res : List String}
    (hc : Pattern.compile p = Except.ok pat)
    (hh : ∀ s ∈ splitOnSlash p.data, segIsHash s = false)
    (hm : pat.matchTopic topic = some res) :
    ∃ parts : List (List Char),
      (splitOnSlash topic.data = parts ∨ splitOnSlash topic.data = parts ++ [[]]) ∧
      parts.length = (splitOnSlash p.data).length ∧
      ∀ pr ∈ parts.zip (splitOnSlash p.data),
        (segIsPlus pr.2 = true → validSeg pr.1 = true) ∧
        (segIsPlus pr.2 = false → pr.1 = pr.2) := by
  obtain ⟨htok, hpat, htop, hreg, hcnt⟩ := compile_ok_inv hc
  rw [Pattern.matchTopic] at hm
  cases hex : execFrags (buildFrags pat.tokens) topic.data with
  | none =>
    rw [hex] at hm
    exact Option.noConfusion hm
  | some caps =>
    obtain ⟨parts, hjoin, hplen, hcond⟩ :=
      exec_parts (splitOnSlash p.data) pat.tokens topic.data caps htok hh hex
    have hfree : ∀ x ∈ parts, '/' ∉ x := by
      intro x hx
      have hmap : (parts.zip (splitOnSlash p.data)).map Prod.fst = parts :=
        List.map_fst_zip _ _ (le_of_eq hplen)
      rw [← hmap] at hx
      obtain ⟨pr, hpr, hpreq⟩ := List.mem_map.mp hx
      subst hpreq
      cases hsp : segIsPlus pr.2 with
      | true => exact validSeg_no_slash ((hcond pr hpr).1 hsp)
      | false =>
        rw [(hcond pr hpr).2 hsp]
        exact mem_splitOnSlash_no_slash (List.of_mem_zip hpr).2
    have hpne : parts ≠ [] := by
      intro hcon
      have hps : (splitOnSlash p.data).length = 0 := by
        rw [hcon] at hplen
        exact hplen.symm
      exact splitOnSlash_ne_nil p.data (List.length_eq_zero.mp hps)
    refine ⟨parts, ?_, hplen, hcond⟩
    rcases hjoin with hj | hj
    · left
      rw [hj, splitOnSlash_joinSlash hpne hfree]
    · right
      have hfree2 : ∀ x ∈ parts ++ [[]], '/' ∉ x := by
        intro x hx
        rcases List.mem_append.mp hx with hx | hx
        · exact hfree x hx
        · rw [List.mem_singleton.mp hx]
          simp
      rw [hj, ← joinSlash_concat_nil hpne, splitOnSlash_joinSlash (by simp) hfree2]

/-- the provable core of the round-trip law: a pattern compiled from `p`,
together with a parameter assignment that is valid for `p`'s segments
(each wildcard named, scalars that are single nonempty wildcard-free
segments for `+`, sequences of such segments for `#`) and that mentions
only wildcard names, satisfies
`getParameters (match (buildParameterizedTopic params)) = params` as a
mapping. -/
theorem roundtrip_core {p : String} {pat : Pattern} {params : Params}
    (hc : Pattern.compile p = Except.ok pat)
    (hval : validAssignB params (splitOnSlash p.data) = true)
    (hcov : coversOnlyB params (splitOnSlash p.data) = true) :
    (pat.matchTopic (pat.buildParameterizedTopic params)).isSome = true ∧
    ∀ k, lookupParam (pat.getParameters
        (pat.matchTopic (pat.buildParameterizedTopic params))) k = lookupParam params k := by
  obtain ⟨htok, hpat, -, -, -⟩ := compile_ok_inv hc
  have hdata : (pat.buildParameterizedTopic params).data =
      joinSlash ((splitOnSlash p.data).map (substSegC params)) := by
    rw [Pattern.buildParameterizedTopic, hpat]
  have hex : execFrags (buildFrags pat.tokens) (pat.buildParameterizedTopic params).data =
      some (expectedCaps params (splitOnSlash p.data)) := by
    rw [hdata]
    exact execFrags_tokenize params (splitOnSlash p.data) pat.tokens htok hval
  have hmatch : pat.matchTopic (pat.buildParameterizedTopic params) =
      some ((pat.buildParameterizedTopic params) ::
        (expectedCaps params (splitOnSlash p.data)).map (fun cs => (⟨cs⟩ : String))) := by
    rw [Pattern.matchTopic, hex]
    rfl
  constructor
  · rw [hmatch]
    rfl
  · intro k
    rw [hmatch, Pattern.getParameters]
    exact extract_tokenize params (splitOnSlash p.data) pat.tokens _ k htok hval hcov

/-! ### Provenance of extracted parameter values -/

theorem paramStep_unnamed {t : Token} (hn : t.name = none) (ps : Params) (c : String) :
    paramStep ps (c, t) = ps := by
  simp [paramStep, hn]

theorem paramStep_empty_name {t : Token} (hn : t.name = some "") (ps : Params) (c : String) :
    paramStep ps (c, t) = ps := by
  simp [paramStep, hn]

theorem lookup_foldl_paramStep_mem :
    ∀ (pairs : List (String × Token)) (acc : Params) (k : String) (v : Value),
      lookupParam (pairs.foldl paramStep acc) k = some v →
      (∃ pr ∈ pairs, pr.2.name = some k ∧ captureParam pr.2 pr.1 = v) ∨
        lookupParam acc k = some v := by
  intro pairs
  induction pairs with
  | nil =>
    intro acc k v h
    exact Or.inr h
  | cons pr0 rest ih =>
    intro acc k v h
    rw [List.foldl_cons] at h
    rcases ih (paramStep acc pr0) k v h with hmem | hacc
    · obtain ⟨pr, hpr, h1, h2⟩ := hmem
      exact Or.inl ⟨pr, List.mem_cons_of_mem pr0 hpr, h1, h2⟩
    · cases hn : pr0.2.name with
      | none =>
        rw [show paramStep acc pr0 = acc from paramStep_unnamed hn acc pr0.1] at hacc
        exact Or.inr hacc
      | some n =>
        by_cases hne : n = ""
        · subst hne
          rw [show paramStep acc pr0 = acc from paramStep_empty_name hn acc pr0.1] at hacc
          exact Or.inr hacc
        · rw [show paramStep acc pr0 = objSet acc n (captureParam pr0.2 pr0.1) from
            paramStep_named hn hne acc pr0.1] at hacc
          rw [lookupParam_objSet] at hacc
          by_cases hk : k = n
          · rw [if_pos hk] at hacc
            rw [Option.some.injEq] at hacc
            refine Or.inl ⟨pr0, List.mem_cons_self _ _, ?_, hacc⟩
            rw [hn, hk]
          · rw [if_neg hk] at hacc
            exact Or.inr hacc

theorem captureParam_sequence_type {t : Token} {c : String} {xs : List String}
    (h : captureParam t c = Value.sequence xs) : t.type = TokenTypes.MULTI := by
  by_contra hne
  rw [captureParam, if_neg hne] at h
  by_cases hl : c.data.getLast? = some '/'
  · rw [if_pos hl] at h
    exact Value.noConfusion h
  · rw [if_neg hl] at h
    exact Value.noConfusion h

theorem captureParam_multi_elems {t : Token} (ht : t.type = TokenTypes.MULTI)
    {cs : List Char} (hok : multiOk cs = true) {xs : List String}
    (hcap : captureParam t ⟨cs⟩ = Value.sequence xs) : "" ∉ xs := by
  rw [captureParam, if_pos ht] at hcap
  have hcap2 : Value.sequence
      ((if (((splitOnSlash cs).getLast?).getD []).isEmpty then (splitOnSlash cs).dropLast
        else splitOnSlash cs).map (fun cs2 => (⟨cs2⟩ : String))) = Value.sequence xs := hcap
  rw [Value.sequence.injEq] at hcap2
  intro hmem
  rw [← hcap2] at hmem
  obtain ⟨part, hpart, hmk⟩ := List.mem_map.mp hmem
  have hd : (⟨part⟩ : String).data = ("" : String).data := congrArg String.data hmk
  have hpartnil : part = [] := hd
  exact absurd hpartnil (multiPartsOk_trim hok part hpart)

/-! ### The claims -/

/-- C1 (corrected): the round-trip law
`getParameters (match (buildParameterizedTopic params)) = params` does not
hold for every complete, type-correct assignment (see `C1_counterexample`:
an empty scalar, or an unnamed wildcard alongside named ones, breaks it).
It holds for every compiled pattern once the assignment is valid for the
pattern: every wildcard segment is named, each single wildcard's value is a
scalar holding one nonempty segment free of `/`, `#`, `+`, each multi
wildcard's value is a sequence of such segments (the empty sequence
included), and every key of the assignment is the name of a wildcard
segment.  The match then succeeds and the extracted mapping has exactly the
original assignment's lookups. -/
theorem C1_round_trip (p : String) (pat : Pattern) (params : Params)
    (hc : Pattern.compile p = Except.ok pat)
    (hval : validAssignB params (splitOnSlash p.data) = true)
    (hcov : coversOnlyB params (splitOnSlash p.data) = true) :
    (pat.matchTopic (pat.buildParameterizedTopic params)).isSome = true ∧
    ∀ k, lookupParam (pat.getParameters
        (pat.matchTopic (pat.buildParameterizedTopic params))) k = lookupParam params k :=
  roundtrip_core hc hval hcov

/-- witness for C1 at the README's pattern and a concrete assignment. -/
theorem C1_round_trip_witness :
    (pDev.matchTopic (pDev.buildParameterizedTopic
      [("deviceId", Value.scalar "42")])).isSome = true ∧
    lookupParam (pDev.getParameters (pDev.matchTopic (pDev.buildParameterizedTopic
      [("deviceId", Value.scalar "42")]))) "deviceId" = some (Value.scalar "42") := by
  have h := C1_round_trip "devices/+deviceId/status" pDev
    [("deviceId", Value.scalar "42")] rfl (by decide) (by decide)
  exact ⟨h.1, (h.2 "deviceId").trans (by decide)⟩

/-- counterexample to C1 as stated: for `devices/+deviceId/status`
(parameter count 1) the complete, type-correct assignment
`deviceId ↦ scalar ""` does not round-trip (the built topic `devices//status`
does not match, so the extracted mapping is empty); and for `a/+/+x`
(parameter count 1, every named wildcard covered by `x ↦ scalar "v"`) the
unnamed wildcard's `+` survives into the built topic `a/+/v`, which the
pattern cannot match. -/
theorem C1_counterexample :
    (Pattern.compile "devices/+deviceId/status" = Except.ok pDev ∧
      pDev.getParameterCount = 1 ∧
      pDev.getParameters (pDev.matchTopic (pDev.buildParameterizedTopic
        [("deviceId", Value.scalar "")])) ≠ [("deviceId", Value.scalar "")]) ∧
    (Pattern.compile "a/+/+x" = Except.ok pUnnamed ∧
      pUnnamed.getParameterCount = 1 ∧
      pUnnamed.getParameters (pUnnamed.matchTopic (pUnnamed.buildParameterizedTopic
        [("x", Value.scalar "v")])) ≠ [("x", Value.scalar "v")]) :=
  ⟨⟨rfl, rfl, by decide⟩, ⟨rfl, rfl, by decide⟩⟩

/-- C2 (corrected): the derived subscribable topic renders single wildcards
as `+`, multi wildcards as `#` and rejoins with `/`, but raw segments are
rendered in regex-escaped form (`token.piece.slice(0, -1)` keeps the
escaping that `processRaw` added), not verbatim: `topicSegRender` escapes
with `escapeChars`.  `C2_counterexample` shows the difference on `a.b`. -/
theorem C2_topic_escaped (p : String) (pat : Pattern)
    (hc : Pattern.compile p = Except.ok pat) :
    pat.getTopic = ⟨joinSlash ((splitOnSlash p.data).map topicSegRender)⟩ := by
  obtain ⟨htok, hpat, htop, -, -⟩ := compile_ok_inv hc
  rw [Pattern.getTopic, htop, buildTopic,
    buildTopic_tokenize (splitOnSlash p.data) pat.tokens htok]

/-- witness for C2 at the pattern `a.b`. -/
theorem C2_topic_escaped_witness :
    pDot.getTopic = ⟨joinSlash ((splitOnSlash ("a.b".data)).map topicSegRender)⟩ :=
  C2_topic_escaped "a.b" pDot rfl

/-- counterexample to C2 as stated: the pattern `a.b` is a single raw
segment, whose claimed verbatim rendering is `a.b` itself, but `getTopic`
returns the regex-escaped `a\.b`. -/
theorem C2_counterexample :
    Pattern.compile "a.b" = Except.ok pDot ∧
    pDot.getTopic = "a\\.b" ∧
    (⟨joinSlash ((splitOnSlash ("a.b".data)).map topicSegVerbatim)⟩ : String) = "a.b" ∧
    pDot.getTopic ≠ "a.b" :=
  ⟨rfl, by decide, by decide, by decide⟩

/-- C3 (corrected): a single wildcard matches exactly one topic segment, but
not an arbitrary one: the occupying segment must be nonempty and free of
`/`, `#`, `+` (the fragment is `([^/#+]+/)`); `C3_counterexample` shows the
claimed unrestricted form fails for the segment `a#b`.  Corrected parts:
(1) substituting a valid segment for a named single wildcard (all other
segments agreeing with the pattern) yields a topic that matches and binds
that whole segment to the wildcard's name; (2) conversely, in any multi-free
pattern a successful match aligns the topic's segments one-to-one with the
pattern's (up to one empty trailing segment), each single-wildcard position
being occupied by exactly one valid segment. -/
theorem C3_single_wildcard :
    (∀ (p : String) (pat : Pattern) (key v : String),
      Pattern.compile p = Except.ok pat →
      ('+' :: key.data) ∈ splitOnSlash p.data →
      validAssignB [(key, Value.scalar v)] (splitOnSlash p.data) = true →
      coversOnlyB [(key, Value.scalar v)] (splitOnSlash p.data) = true →
      (pat.matchTopic (pat.buildParameterizedTopic [(key, Value.scalar v)])).isSome = true ∧
      lookupParam (pat.getParameters (pat.matchTopic (pat.buildParameterizedTopic
        [(key, Value.scalar v)]))) key = some (Value.scalar v)) ∧
    (∀ (p : String) (pat : Pattern) (topic : String) (res : List String),
      Pattern.compile p = Except.ok pat →
      (∀ s ∈ splitOnSlash p.data, segIsHash s = false) →
      pat.matchTopic topic = some res →
      ∃ parts : List (List Char),
        (splitOnSlash topic.data = parts ∨ splitOnSlash topic.data = parts ++ [[]]) ∧
        parts.length = (splitOnSlash p.data).length ∧
        ∀ pr ∈ parts.zip (splitOnSlash p.data),
          segIsPlus pr.2 = true → validSeg pr.1 = true) := by
  constructor
  · intro p pat key v hc hmem hval hcov
    have h := roundtrip_core hc hval hcov
    refine ⟨h.1, ?_⟩
    rw [h.2 key, lookupParam_cons]
    simp
  · intro p pat topic res hc hh hm
    obtain ⟨parts, h1, h2, h3⟩ := matchTopic_parts hc hh hm
    exact ⟨parts, h1, h2, fun pr hpr hplus => (h3 pr hpr).1 hplus⟩

/-- witness for C3's success part at the README's pattern. -/
theorem C3_single_wildcard_witness :
    (pDev.matchTopic (pDev.buildParameterizedTopic
      [("deviceId", Value.scalar "7")])).isSome = true ∧
    lookupParam (pDev.getParameters (pDev.matchTopic (pDev.buildParameterizedTopic
      [("deviceId", Value.scalar "7")]))) "deviceId" = some (Value.scalar "7") :=
  C3_single_wildcard.1 "devices/+deviceId/status" pDev "deviceId" "7" rfl (by decide)
    (by decide) (by decide)

/-- counterexample to C3 as stated: the topic `devices/a#b/status` puts
exactly one nonempty `/`-delimited segment at the wildcard position of
`devices/+deviceId/status` and agrees elsewhere, yet it does not match. -/
theorem C3_counterexample :
    Pattern.compile "devices/+deviceId/status" = Except.ok pDev ∧
    splitOnSlash ("devices/a#b/status".data) =
      ["devices".data, "a#b".data, "status".data] ∧
    splitOnSlash ("devices/+deviceId/status".data) =
      ["devices".data, "+deviceId".data, "status".data] ∧
    pDev.matchTopic "devices/a#b/status" = none :=
  ⟨rfl, by decide, by decide, by decide⟩

/-- C4 (confirmed): compilation fails exactly when a `#`-initial segment
appears in non-final position, and the only error ever produced is the
multi-wildcard grammar error; every pattern whose `#`-initial segments are
only final compiles. -/
theorem C4_compile_error (p : String) :
    ((∃ pat, Pattern.compile p = Except.ok pat) ↔
      ∀ s ∈ (splitOnSlash p.data).dropLast, segIsHash s = false) ∧
    ∀ e, Pattern.compile p = Except.error e →
      e = "# wildcard must be at the end of the pattern" := by
  constructor
  · constructor
    · rintro ⟨pat, hc⟩
      obtain ⟨htok, -, -, -, -⟩ := compile_ok_inv hc
      exact (tokenizeAux_ok_iff (splitOnSlash p.data)).mp ⟨pat.tokens, htok⟩
    · intro hok
      obtain ⟨ts, hts⟩ := (tokenizeAux_ok_iff (splitOnSlash p.data)).mpr hok
      refine ⟨Pattern.mk p (buildTopic ts) (buildRegularExpression ts) ts
        (buildParameterCount ts), ?_⟩
      rw [compile_eq_tokenize, show tokenize p = Except.ok ts from hts]
      rfl
  · intro e he
    exact tokenizeAux_error_msg (splitOnSlash p.data) ((compile_error_iff p e).mp he)

/-- C5 (corrected): the assembled matcher is anchored at both ends, and a
match really is whole-string — for a multi-free pattern the topic supplies
exactly one segment per pattern segment, so extra leading or extra nonempty
trailing segments never match; the README examples behave as claimed.  The
claim's unrestricted "extra trailing segments never match" is false,
however: the final fragment's `/?` tolerates one extra empty trailing
segment (a trailing slash), see `C5_counterexample`. -/
theorem C5_whole_string :
    (∀ (p : String) (pat : Pattern), Pattern.compile p = Except.ok pat →
      pat.regex = "^" ++ String.join ((buildFrags pat.tokens).map fragRender) ++ "$") ∧
    (∀ (p : String) (pat : Pattern) (topic : String) (res : List String),
      Pattern.compile p = Except.ok pat →
      (∀ s ∈ splitOnSlash p.data, segIsHash s = false) →
      pat.matchTopic topic = some res →
      (splitOnSlash topic.data).length = (splitOnSlash p.data).length ∨
        ((splitOnSlash topic.data).length = (splitOnSlash p.data).length + 1 ∧
          (splitOnSlash topic.data).getLast? = some [])) ∧
    (pDev.matchTopic "devices/42/status").isSome = true ∧
    lookupParam (pDev.getParameters (pDev.matchTopic "devices/42/status")) "deviceId" =
      some (Value.scalar "42") ∧
    pDev.matchTopic "devices/42/43/status" = none := by
  refine ⟨?_, ?_, by decide, by decide, by decide⟩
  · intro p pat hc
    obtain ⟨htok, -, -, hreg, -⟩ := compile_ok_inv hc
    rw [hreg]
    exact buildRegularExpression_renders htok
  · intro p pat topic res hc hh hm
    obtain ⟨parts, h1, h2, -⟩ := matchTopic_parts hc hh hm
    rcases h1 with h1 | h1
    · left
      rw [h1, h2]
    · right
      constructor
      · rw [h1, List.length_append, h2]
        simp
      · rw [h1]
        exact List.getLast?_concat parts

/-- witness for C5's anchoring part at the README's pattern. -/
theorem C5_whole_string_witness :
    pDev.regex = "^" ++ String.join ((buildFrags pDev.tokens).map fragRender) ++ "$" :=
  C5_whole_string.1 "devices/+deviceId/status" pDev rfl

/-- counterexample to C5 as stated: `devices/42/status/` has four
`/`-delimited segments — one more than `devices/+deviceId/status`, whose
last segment is not a multi wildcard — yet it matches, because the final
`/?` of the assembled matcher accepts the trailing slash. -/
theorem C5_counterexample :
    Pattern.compile "devices/+deviceId/status" = Except.ok pDev ∧
    (splitOnSlash ("devices/+deviceId/status".data)).length = 3 ∧
    (splitOnSlash ("devices/42/status/".data)).length = 4 ∧
    (pDev.matchTopic "devices/42/status/").isSome = true :=
  ⟨rfl, by decide, by decide, by decide⟩

/-- C6 (confirmed): an escaped literal consumes exactly its source text —
`litConsume (escapeChars s) input` succeeds precisely on inputs beginning
with `s` itself — so in a multi-free pattern every non-wildcard position of
a matching topic is character-for-character the pattern's own segment; in
particular `a.b` matches the topic `a.b` and not the metacharacter reading
`axb`. -/
theorem C6_literal_segments :
    (∀ {s input r : List Char},
      litConsume (escapeChars s) input = some r ↔ input = s ++ r) ∧
    (∀ (p : String) (pat : Pattern) (topic : String) (res : List String),
      Pattern.compile p = Except.ok pat →
      (∀ s ∈ splitOnSlash p.data, segIsHash s = false) →
      pat.matchTopic topic = some res →
      ∃ parts : List (List Char),
        (splitOnSlash topic.data = parts ∨ splitOnSlash topic.data = parts ++ [[]]) ∧
        parts.length = (splitOnSlash p.data).length ∧
        ∀ pr ∈ parts.zip (splitOnSlash p.data),
          segIsWildcard pr.2 = false → pr.1 = pr.2) ∧
    (pDot.matchTopic "a.b").isSome = true ∧
    pDot.matchTopic "axb" = none := by
  refine ⟨?_, ?_, by decide, by decide⟩
  · intro s input r
    constructor
    · exact litConsume_escapeChars_eq
    · intro h
      rw [h]
      exact litConsume_escapeChars_append s r
  · intro p pat topic res hc hh hm
    obtain ⟨parts, h1, h2, h3⟩ := matchTopic_parts hc hh hm
    refine ⟨parts, h1, h2, ?_⟩
    intro pr hpr hw
    rw [segIsWildcard] at hw
    exact (h3 pr hpr).2 (Bool.or_eq_false_iff.mp hw).1

/-- witness for C6's concrete part: `a.b` does not match `axb`. -/
theorem C6_literal_segments_witness : pDot.matchTopic "axb" = none :=
  C6_literal_segments.2.2.2

/-- C7 (confirmed): non-match is not an error.  `match` is a total function
into an option — for every pattern value and topic it returns either the
no-match indicator or a capture result (in the model there is no third,
throwing outcome) — and `getParameters` of the no-match indicator is the
empty mapping. -/
theorem C7_non_match_not_error :
    (∀ (pat : Pattern) (topic : String),
      pat.matchTopic topic = none ∨ ∃ res, pat.matchTopic topic = some res) ∧
    ∀ pat : Pattern, pat.getParameters none = [] := by
  constructor
  · intro pat topic
    cases h : pat.matchTopic topic with
    | none => exact Or.inl rfl
    | some res => exact Or.inr ⟨res, rfl⟩
  · intro pat
    rfl

/-- C8 (confirmed): a pattern with no wildcard segments has parameter count
0, and building its parameterized topic from the empty assignment returns
the pattern string unchanged. -/
theorem C8_no_wildcards (p : String) (pat : Pattern)
    (hc : Pattern.compile p = Except.ok pat)
    (hw : ∀ s ∈ splitOnSlash p.data, segIsWildcard s = false) :
    pat.getParameterCount = 0 ∧ pat.buildParameterizedTopic [] = p := by
  obtain ⟨htok, hpat, -, -, hcnt⟩ := compile_ok_inv hc
  constructor
  · rw [Pattern.getParameterCount, hcnt]
    exact buildParameterCount_raw (tokens_all_raw (splitOnSlash p.data) pat.tokens htok hw)
  · rw [buildParameterizedTopic_empty, hpat]

/-- witness for C8 at the wildcard-free pattern `devices/status`. -/
theorem C8_no_wildcards_witness :
    (patOrDefault (Pattern.compile "devices/status")).getParameterCount = 0 ∧
    (patOrDefault (Pattern.compile "devices/status")).buildParameterizedTopic [] =
      "devices/status" :=
  C8_no_wildcards "devices/status" (patOrDefault (Pattern.compile "devices/status")) rfl
    (by decide)

/-- C9 (confirmed): the subscribable topic of a pattern with at least one
wildcard segment is never matched by the pattern itself: the rendered `+`
and `#` sigils are excluded from every wildcard fragment's character set. -/
theorem C9_topic_self_match (p : String) (pat : Pattern)
    (hc : Pattern.compile p = Except.ok pat)
    (hw : ∃ s ∈ splitOnSlash p.data, segIsWildcard s = true) :
    pat.matchTopic pat.getTopic = none := by
  obtain ⟨htok, -, htop, -, -⟩ := compile_ok_inv hc
  have hdata : pat.getTopic.data = joinSlash ((splitOnSlash p.data).map topicSegRender) := by
    rw [Pattern.getTopic, htop, buildTopic, stringData_mk,
      buildTopic_tokenize (splitOnSlash p.data) pat.tokens htok]
  rw [Pattern.matchTopic, hdata,
    exec_topic_none (splitOnSlash p.data) pat.tokens
      (fun s hs => mem_splitOnSlash_no_slash hs) htok hw]
  rfl

/-- witness for C9 at the README's pattern. -/
theorem C9_topic_self_match_witness : pDev.matchTopic pDev.getTopic = none :=
  C9_topic_self_match "devices/+deviceId/status" pDev rfl
    ⟨"+deviceId".data, by decide, by decide⟩

/-- C10 (confirmed): a multi-wildcard value extracted from any successful
match never contains an empty-string element — the captured text is a
`/?`-separated run of nonempty `[^/#+]` groups, and the extraction drops
the one possible trailing empty part — though the sequence as a whole may
be empty. -/
theorem C10_multi_values (pat : Pattern) (topic key : String) (xs : List String)
    (h : lookupParam (pat.getParameters (pat.matchTopic topic)) key =
      some (Value.sequence xs)) :
    "" ∉ xs := by
  cases hex : execFrags (buildFrags pat.tokens) topic.data with
  | none =>
    rw [Pattern.getParameters, Pattern.matchTopic, hex] at h
    have h2 : lookupParam ([] : Params) key = some (Value.sequence xs) := h
    exact Option.noConfusion h2
  | some caps =>
    rw [Pattern.getParameters, Pattern.matchTopic, hex] at h
    have h2 : lookupParam (((caps.map (fun cs => (⟨cs⟩ : String))).zip
        (removeRawTokens pat.tokens)).foldl paramStep []) key =
          some (Value.sequence xs) := h
    rcases lookup_foldl_paramStep_mem _ _ _ _ h2 with ⟨pr, hpr, hname, hcap⟩ | hnil
    · rw [List.zip_map_left] at hpr
      obtain ⟨pr0, hpr0, hpreq⟩ := List.mem_map.mp hpr
      have htype : pr0.2.type = TokenTypes.MULTI := by
        have ht := captureParam_sequence_type hcap
        rw [← hpreq] at ht
        exact ht
      have hok : multiOk pr0.1 = true :=
        exec_caps_multiOk pat.tokens topic.data caps hex pr0 hpr0 htype
      have hcap2 : captureParam pr0.2 ⟨pr0.1⟩ = Value.sequence xs := by
        rw [← hpreq] at hcap
        exact hcap
      exact captureParam_multi_elems htype hok hcap2
    · exact Option.noConfusion hnil

/-- witness for C10: matching `devices/#rest` against `devices/a/b` binds
`rest` to the sequence `["a", "b"]`, whose elements are nonempty. -/
theorem C10_multi_values_witness : "" ∉ (["a", "b"] : List String) :=
  C10_multi_values pMulti "devices/a/b" "rest" ["a", "b"] (by decide)

end Bus
